import Mathlib

/-!
Verification of the streaming kv-pair IR search engine of this repository.

The definitions below are a shallow embedding of the production search path:

* `ir_search_methods.cpp` (literal-type mapping, per-type filter evaluation,
  `preprocess_query`);
* the production `Deserializer` (second definition in the deserializer header):
  `initialize_partial_resolutions`, `handle_resolution_update_step`,
  `evaluate`, `evaluate_recursive`, `evaluate_filter` and
  `deserialize_next_ir_unit`.

Types that the deserializer uses but whose definitions live outside the
provided sources (the clp-s search AST headers, `clp::ffi::SchemaTree`,
`clp::ffi::Value`, `clp::string_utils::wildcard_match_unsafe`) are modelled
from the specification; each such definition carries a doc comment starting
with `Modelled from the spec:`.

Machine integers: node ids and cursors are modelled as `Nat`; i64 payloads as
`Int` (no arithmetic in the verified paths can overflow a 64-bit quantity
because no arithmetic is performed on them, only comparisons).  Floating-point
payloads are represented by an opaque integer model; no claim in this
development depends on floating-point arithmetic.
-/

set_option maxHeartbeats 1000000

namespace ClpIr

/-- Tri-valued evaluation result, `EvaluatedValue` in the production search
header: `True`, `False`, `Prune`. -/
inductive EvaluatedValue where
  | True
  | False
  | Prune
deriving DecidableEq

/-- Schema-tree node types, `SchemaTree::Node::Type`. -/
inductive NodeType where
  | Int
  | Float
  | Bool
  | Str
  | UnstructuredArray
  | Obj
deriving DecidableEq

/-- A schema-tree node locator `(parent_id, key_name, node_type)`. -/
structure NodeLocator where
  parent_id : Nat
  key_name : String
  node_type : NodeType
deriving DecidableEq

/-- A stored schema-tree node; ids are positions in the node list. -/
structure SchemaNode where
  parent_id : Nat
  key_name : String
  node_type : NodeType
deriving DecidableEq

/-- Modelled from the spec: `clp::ffi::SchemaTree` (the class itself is not
among the provided sources; only its callers are).  An append-only trie whose
nodes get monotonically increasing ids starting at 0 for the root; the root is
an `Obj` node with empty name whose parent is itself. -/
structure SchemaTree where
  nodes : List SchemaNode
deriving DecidableEq

/-- The root node id (`SchemaTree::cRootId`). -/
def cRootId : Nat := 0

/-- A freshly constructed schema tree holding only the root. -/
def SchemaTree.initial : SchemaTree :=
  ⟨[⟨0, "", NodeType.Obj⟩]⟩

def SchemaTree.size (t : SchemaTree) : Nat := t.nodes.length

/-- Modelled from the spec: node lookup by id.  Callers only look up ids that
are present; out-of-range ids return the root as a harmless default. -/
def SchemaTree.get_node (t : SchemaTree) (id : Nat) : SchemaNode :=
  t.nodes.getD id ⟨0, "", NodeType.Obj⟩

/-- Modelled from the spec: whether a node with the given locator exists. -/
def SchemaTree.has_node (t : SchemaTree) (loc : NodeLocator) : Bool :=
  t.nodes.any fun n =>
    n.parent_id == loc.parent_id && n.key_name == loc.key_name
      && n.node_type == loc.node_type

/-- Modelled from the spec: append-only insertion; returns the new tree and
the id assigned to the inserted node (= previous size). -/
def SchemaTree.insert_node (t : SchemaTree) (loc : NodeLocator) :
    SchemaTree × Nat :=
  (⟨t.nodes ++ [⟨loc.parent_id, loc.key_name, loc.node_type⟩]⟩, t.nodes.length)

/-- Modelled from the spec: `clp::ffi::Value`.  The two encoded-text variants
carry the string their deterministic `decode()` produces (the spec fixes that
decoding is a pure function; its internals are out of scope here).
Floating-point payloads are opaquely modelled by `Int`. -/
inductive Value where
  | NullVal
  | BoolVal (b : Bool)
  | IntVal (v : Int)
  | FloatVal (v : Int)
  | StringVal (s : String)
  | EncodedTextAst8 (decoded : String)
  | EncodedTextAst4 (decoded : String)
deriving DecidableEq

/-- Filter operations of the search AST.  Modelled from the spec:
`FilterOp ∈ \x7bEq, Neq, Lt, Gt, Lte, Gte, Exists, Nexists\x7d`. -/
inductive FilterOperation where
  | EXISTS
  | NEXISTS
  | EQ
  | NEQ
  | LT
  | GT
  | LTE
  | GTE
deriving DecidableEq

/-- Modelled from the spec: the search-AST literal,
`Literal ∈ \x7bInt, Float, Bool, VarString, ClpString, Null, EpochDate\x7d`. -/
inductive SearchLiteral where
  | IntLit (v : Int)
  | FloatLit (v : Int)
  | BoolLit (b : Bool)
  | VarStringLit (s : String)
  | ClpStringLit (s : String)
  | NullLit
  | DateLit (v : Int)
deriving DecidableEq

/-- Modelled from the spec: `Literal::as_int`.  Integer literals yield their
value; date literals yield their epoch timestamp (`DateLiteral::as_int` in the
provided `DateLiteral.hpp` always succeeds); other literals fail. -/
def SearchLiteral.as_int : SearchLiteral → FilterOperation → Option Int
  | SearchLiteral.IntLit v, _ => some v
  | SearchLiteral.DateLit v, _ => some v
  | _, _ => none

/-- Modelled from the spec: `Literal::as_float` under the opaque float model. -/
def SearchLiteral.as_float : SearchLiteral → FilterOperation → Option Int
  | SearchLiteral.FloatLit v, _ => some v
  | SearchLiteral.IntLit v, _ => some v
  | SearchLiteral.DateLit v, _ => some v
  | _, _ => none

/-- Modelled from the spec: `Literal::as_bool`. -/
def SearchLiteral.as_bool : SearchLiteral → FilterOperation → Option Bool
  | SearchLiteral.BoolLit b, _ => some b
  | _, _ => none

/-- Modelled from the spec: `Literal::as_var_string`. -/
def SearchLiteral.as_var_string : SearchLiteral → FilterOperation → Option String
  | SearchLiteral.VarStringLit s, _ => some s
  | _, _ => none

/-- Modelled from the spec: `Literal::as_clp_string`. -/
def SearchLiteral.as_clp_string : SearchLiteral → FilterOperation → Option String
  | SearchLiteral.ClpStringLit s, _ => some s
  | _, _ => none

/-!
Literal-type bitmask constants.  Modelled from the spec: the clp-s
`LiteralType` bitmask (its header is not among the provided sources).  The
exact bit positions are immaterial to every claim; only disjointness of the
bits and `UnknownT` carrying no bit are used.
-/

def IntegerT : Nat := 1
def FloatT : Nat := 2
def ClpStringT : Nat := 4
def VarStringT : Nat := 8
def BooleanT : Nat := 16
def ArrayT : Nat := 32
def NullT : Nat := 64
def EpochDateT : Nat := 128
def UnknownT : Nat := 0
def cAllTypes : Nat := 255

/-- A path token of a column descriptor (`DescriptorToken`): a literal key
segment or a single-segment wildcard.  Regex tokens are reserved and unused by
the verified paths. -/
inductive DescriptorToken where
  | lit (s : String)
  | wildcard
deriving DecidableEq

/-- `DescriptorToken::get_token`; the wildcard token's text is a star. -/
def DescriptorToken.get_token : DescriptorToken → String
  | DescriptorToken.lit s => s
  | DescriptorToken.wildcard => "*"

/-- A column descriptor: namespace string, token list, allowed literal-type
bitmask (`m_flags`). -/
structure ColumnDescriptor where
  descriptor_namespace : String
  descriptors : List DescriptorToken
  flags : Nat
deriving DecidableEq

instance : Inhabited ColumnDescriptor := ⟨⟨"", [], 0⟩⟩

/-- Modelled from the spec: `clp_s::constants::cAutogenNamespace`
(`archive_constants.hpp` is not among the provided sources).  Only equality
with this constant is ever used, so its exact text is immaterial. -/
def cAutogenNamespace : String := "@"

/-- `ColumnDescriptor::is_pure_wildcard`: exactly one token and it is a
wildcard. -/
def ColumnDescriptor.is_pure_wildcard (c : ColumnDescriptor) : Bool :=
  match c.descriptors with
  | [DescriptorToken.wildcard] => true
  | _ => false

/-- `ColumnDescriptor::matches_type`: the single type intersects the flags. -/
def ColumnDescriptor.matches_type (c : ColumnDescriptor) (t : Nat) : Bool :=
  c.flags &&& t != 0

/-- `ColumnDescriptor::matches_any`: the bitmask intersects the flags. -/
def ColumnDescriptor.matches_any (c : ColumnDescriptor) (mask : Nat) : Bool :=
  c.flags &&& mask != 0

/-- Modelled from the spec: `clp::string_utils::wildcard_match_unsafe` on
exploded strings, structurally recursive on the pattern.  A star matches any
run of characters (possibly empty) — expressed as matching the rest of the
pattern against some suffix of the subject; a question mark matches exactly
one character; when `case_sensitive` is false, characters compare
case-insensitively. -/
def wildcard_match_chars (case_sensitive : Bool) :
    List Char → List Char → Bool
  | [], tame => tame.isEmpty
  | '*' :: ws, tame =>
      tame.tails.any fun t => wildcard_match_chars case_sensitive ws t
  | '?' :: ws, t :: ts => wildcard_match_chars case_sensitive ws ts
  | '?' :: _, [] => false
  | w :: ws, t :: ts =>
      (if case_sensitive then w == t else w.toLower == t.toLower)
        && wildcard_match_chars case_sensitive ws ts
  | _ :: _, [] => false

/-- Modelled from the spec: `clp::string_utils::wildcard_match_unsafe`.
First argument is the subject (tame) string, second the pattern (wild)
string, third the case-sensitivity flag. -/
def wildcard_match_unsafe (tame wild : String) (case_sensitive : Bool) : Bool :=
  wildcard_match_chars case_sensitive wild.data tame.data

/-!
Translation of the free functions of `ir_search_methods.cpp` (the production
variant; the stale prototype under `components/` is embedded separately
below as `preprocess_query_prototype`).
-/

/-- Translation of `node_to_literal_types`: all literal types a schema-tree
node type can match. -/
def node_to_literal_types : NodeType → Nat
  | NodeType.Int => IntegerT ||| FloatT
  | NodeType.Float => IntegerT ||| FloatT
  | NodeType.Bool => BooleanT
  | NodeType.Str => ClpStringT ||| VarStringT
  | NodeType.UnstructuredArray => ArrayT
  | NodeType.Obj => NullT

/-- Translation of `node_and_value_to_literal_type`: the single literal type
inhabited by a `(node type, value)` pair.  For a `Str` node the source reads
the value unconditionally; a missing value cannot occur there and falls to the
`ClpStringT` branch of the model. -/
def node_and_value_to_literal_type : NodeType → Option Value → Nat
  | NodeType.Int, _ => IntegerT
  | NodeType.Float, _ => FloatT
  | NodeType.Bool, _ => BooleanT
  | NodeType.UnstructuredArray, _ => ArrayT
  | NodeType.Str, some (Value.StringVal _) => VarStringT
  | NodeType.Str, _ => ClpStringT
  | NodeType.Obj, some Value.NullVal => NullT
  | NodeType.Obj, _ => UnknownT

/-- Translation of `evaluate_int_filter`.  The value extraction mirrors
`get_immutable_view<value_int_t>`; a non-integer value cannot reach this
evaluator (dispatch guarantees `IntegerT`) and defaults to 0 in the model. -/
def evaluate_int_filter (op : FilterOperation) (operand : Option SearchLiteral)
    (value : Option Value) : Bool :=
  match operand.bind (fun l => l.as_int op) with
  | none => false
  | some op_value =>
      let extracted_value : Int :=
        match value with
        | some (Value.IntVal v) => v
        | _ => 0
      match op with
      | FilterOperation.EQ => extracted_value == op_value
      | FilterOperation.NEQ => extracted_value != op_value
      | FilterOperation.LT => decide (extracted_value < op_value)
      | FilterOperation.GT => decide (extracted_value > op_value)
      | FilterOperation.LTE => decide (extracted_value ≤ op_value)
      | FilterOperation.GTE => decide (extracted_value ≥ op_value)
      | _ => false

/-- Translation of `evaluate_float_filter` under the opaque float model. -/
def evaluate_float_filter (op : FilterOperation) (operand : Option SearchLiteral)
    (value : Option Value) : Bool :=
  match operand.bind (fun l => l.as_float op) with
  | none => false
  | some op_value =>
      let extracted_value : Int :=
        match value with
        | some (Value.FloatVal v) => v
        | _ => 0
      match op with
      | FilterOperation.EQ => extracted_value == op_value
      | FilterOperation.NEQ => extracted_value != op_value
      | FilterOperation.LT => decide (extracted_value < op_value)
      | FilterOperation.GT => decide (extracted_value > op_value)
      | FilterOperation.LTE => decide (extracted_value ≤ op_value)
      | FilterOperation.GTE => decide (extracted_value ≥ op_value)
      | _ => false

/-- Translation of `evaluate_bool_filter`. -/
def evaluate_bool_filter (op : FilterOperation) (operand : Option SearchLiteral)
    (value : Option Value) : Bool :=
  match operand.bind (fun l => l.as_bool op) with
  | none => false
  | some op_value =>
      let extracted_value : Bool :=
        match value with
        | some (Value.BoolVal b) => b
        | _ => false
      match op with
      | FilterOperation.EQ => extracted_value == op_value
      | FilterOperation.NEQ => extracted_value != op_value
      | _ => false

/-- Translation of `evaluate_var_string_filter`: the operand is converted via
`as_var_string`; `EQ` wildcard-matches the value (subject) against the operand
(pattern) with the case-sensitivity argument fixed to `false` exactly as in
the source; `NEQ` is the negation of that match; other operations yield
`false`. -/
def evaluate_var_string_filter (op : FilterOperation)
    (operand : Option SearchLiteral) (value : Option Value) : Bool :=
  match operand.bind (fun l => l.as_var_string op) with
  | none => false
  | some op_value =>
      let extracted_value : String :=
        match value with
        | some (Value.StringVal s) => s
        | _ => ""
      match op with
      | FilterOperation.EQ => wildcard_match_unsafe extracted_value op_value false
      | FilterOperation.NEQ =>
          !( wildcard_match_unsafe extracted_value op_value false)
      | _ => false

/-- Translation of `evaluate_clp_string_filter`: the encoded-text value is
decoded first (`decode_and_unparse`), then matched exactly as the var-string
evaluator does. -/
def evaluate_clp_string_filter (op : FilterOperation)
    (operand : Option SearchLiteral) (value : Option Value) : Bool :=
  match operand.bind (fun l => l.as_clp_string op) with
  | none => false
  | some op_value =>
      let extracted_value : String :=
        match value with
        | some (Value.EncodedTextAst8 s) => s
        | some (Value.EncodedTextAst4 s) => s
        | _ => ""
      match op with
      | FilterOperation.EQ => wildcard_match_unsafe extracted_value op_value false
      | FilterOperation.NEQ =>
          !( wildcard_match_unsafe extracted_value op_value false)
      | _ => false

/-- A filter expression of the search AST.  Column descriptors are kept in an
arena (a list) owned by the deserializer and referenced by index, mirroring
the pointer identity of the source's shared pointers. -/
structure FilterExpr where
  column_index : Nat
  operation : FilterOperation
  operand : Option SearchLiteral
  inverted : Bool
deriving DecidableEq

/-- Translation of the filter-level `evaluate` of `ir_search_methods.cpp`:
`EXISTS` and `NEXISTS` are decided outright; otherwise dispatch on the
literal type; unsupported types yield `False`. -/
def evaluate (f : FilterExpr) (literal_type : Nat) (value : Option Value) :
    EvaluatedValue :=
  let op := f.operation
  if op = FilterOperation.EXISTS then EvaluatedValue.True
  else if op = FilterOperation.NEXISTS then EvaluatedValue.False
  else
    let rval : Bool :=
      if literal_type = IntegerT then evaluate_int_filter op f.operand value
      else if literal_type = FloatT then evaluate_float_filter op f.operand value
      else if literal_type = BooleanT then evaluate_bool_filter op f.operand value
      else if literal_type = VarStringT then
        evaluate_var_string_filter op f.operand value
      else if literal_type = ClpStringT then
        evaluate_clp_string_filter op f.operand value
      else false
    if rval then EvaluatedValue.True else EvaluatedValue.False

/-- The search-AST expression tree.  `AndExpr`/`OrExpr` carry their operand
lists and inversion flags; `EmptyExpr` is the rewrite-pass sentinel. -/
inductive Expr where
  | AndExpr (inverted : Bool) (ops : List Expr)
  | OrExpr (inverted : Bool) (ops : List Expr)
  | Filter (f : FilterExpr)
  | EmptyExpr

/-- Whether an expression is the empty sentinel — the embedding of the
source's `dynamic_pointer_cast<EmptyExpr>` test. -/
def Expr.is_empty : Expr → Bool
  | Expr.EmptyExpr => true
  | _ => false

/-- Translation of the production `preprocess_query` (the `.cpp` among the
provided sources that uses the `clp_s::search::ast` namespace): run the three
rewrite passes in order, returning early with the empty expression as soon as
a pass produces it; a null query passes through.  The passes themselves
(`OrOfAndForm`, `NarrowTypes`, `ConvertToExists`) live outside the provided
sources, so they are taken as function parameters. -/
def preprocess_query (standardize_pass narrow_pass convert_pass : Expr → Expr) :
    Option Expr → Option Expr
  | none => none
  | some expr =>
      let e1 := standardize_pass expr
      if e1.is_empty then some e1
      else
        let e2 := narrow_pass e1
        if e2.is_empty then some e2
        else some (convert_pass e2)

/-- Translation of the stale prototype `preprocess_query` under
`components/core/src/clp/ffi/ir_stream/ir_search_methods.cpp`: its
empty-expression check is inverted, so it returns the pass-one result
immediately whenever that result is not empty and keeps running passes only
on the empty expression. -/
def preprocess_query_prototype (standardize_pass narrow_pass convert_pass :
    Expr → Expr) : Option Expr → Option Expr
  | none => none
  | some expr =>
      let e1 := standardize_pass expr
      if ¬ e1.is_empty then some e1
      else
        let e2 := narrow_pass e1
        if ¬ e2.is_empty then some e2
        else some (convert_pass e2)

/-!
The deserializer's search state.  The source keys partial resolutions by
`(node id, is-auto-generated)` and keys resolutions and projected columns by
column pointer identity; the embedding uses the column's arena index.
Association lists stand in for `std::map`: keys are unique by construction
(entries are appended to the value list of an existing key), and the order of
the per-key value lists matches the source's append order, which is the only
order the source depends on.
-/

/-- One in-flight partial resolution: `(column index, token cursor)`. -/
abbrev PartialResolutionEntry := Nat × Nat

/-- Key of the partial-resolution map: `(node id, is auto-generated)`. -/
abbrev PartialResolutionKey := Nat × Bool

/-- First-match association-list lookup, standing in for `std::map::find`. -/
def alist_find {α β : Type} [BEq α] (l : List (α × β)) (k : α) : Option β :=
  (l.find? fun p => p.1 == k).map Prod.snd

/-- Append `v` to the list stored at key `k`, creating the key (at the end)
if absent — the effect of `map[k].push_back(v)`. -/
def alist_append_entry {α β : Type} [BEq α] :
    List (α × List β) → α → β → List (α × List β)
  | [], k, v => [(k, [v])]
  | (k', vs) :: rest, k, v =>
      if k' == k then (k', vs ++ [v]) :: rest
      else (k', vs) :: alist_append_entry rest k v

/-- The deserializer's column-resolution state (`m_partial_resolutions`,
`m_resolutions`, `m_projected_column_to_original_key`, plus the column
arena). -/
structure SearchState where
  columns : List ColumnDescriptor
  partial_resolutions :
    List (PartialResolutionKey × List PartialResolutionEntry)
  resolutions : List (Nat × List Nat)
  projected_columns : List (Nat × String)
deriving DecidableEq

/-- Column lookup in the arena. -/
def SearchState.column_get (st : SearchState) (idx : Nat) : ColumnDescriptor :=
  st.columns.getD idx default

/-- One iteration of the loop body of `handle_resolution_update_step` for a
single partial-resolution entry `(colIdx, c)` against the inserted node's
locator: returns the entries to append at the key of the new node, and
whether the entry produces a terminal (final) match.  Mirrors the source: let
`cur` be the token at the cursor and `is_last` whether the cursor is on the
final token; an `Obj` node with a non-final cursor extends partial
resolutions (a wildcard both stays and advances; a matching literal advances,
also skipping an immediately following non-final wildcard); otherwise a
cursor on the final token — or on the second-to-last token when the last one
is a wildcard (matched zero-width) — produces a final match if the node type
intersects the column's flags and the current token matches the key name. -/
def process_partial_entry (col : ColumnDescriptor) (colIdx c : Nat)
    (loc : NodeLocator) : List PartialResolutionEntry × Bool :=
  match col.descriptors.get? c with
  | none => ([], false)
  | some cur =>
      let len := col.descriptors.length
      let is_last := c + 1 = len
      if ¬ is_last ∧ loc.node_type = NodeType.Obj then
        match cur with
        | DescriptorToken.wildcard => ([(colIdx, c), (colIdx, c + 1)], false)
        | DescriptorToken.lit s =>
            if s = loc.key_name then
              if col.descriptors.get? (c + 1) = some DescriptorToken.wildcard
                  ∧ c + 2 ≠ len then
                ([(colIdx, c + 1), (colIdx, c + 2)], false)
              else
                ([(colIdx, c + 1)], false)
            else ([], false)
      else if is_last
          ∨ (¬ is_last
              ∧ col.descriptors.get? (c + 1) = some DescriptorToken.wildcard
              ∧ c + 2 = len) then
        if col.matches_any (node_to_literal_types loc.node_type)
            ∧ (cur = DescriptorToken.wildcard ∨ cur.get_token = loc.key_name)
          then ([], true)
        else ([], false)
      else ([], false)

/-- A single callback on the IR unit handler. -/
inductive HandlerCall where
  | HandleLogEvent (auto_pairs user_pairs : List (Nat × Option Value))
      (utc_offset : Int)
  | HandleSchemaTreeNodeInsertion (is_auto_generated : Bool) (loc : NodeLocator)
  | HandleUtcOffsetChange (old_offset new_offset : Int)
  | HandleEndOfStream
  | HandleProjectionResolution (is_auto_generated : Bool) (node_id : Nat)
      (original_key : String)
deriving DecidableEq

/-- The error codes the deserializer surfaces (`std::errc` values used by the
source plus the reader-exhaustion code).  A handler failure is modelled as
the handler directly returning the mapped code. -/
inductive Errc where
  | result_out_of_range
  | protocol_error
  | protocol_not_supported
  | invalid_argument
  | operation_not_permitted
  | no_message
  | handler_failure
deriving DecidableEq

/-- A unit handler: returns `none` on success or the error code that the
deserializer propagates (the composition of the source's handler return value
with `ir_error_code_to_errc`). -/
abbrev Handler := HandlerCall → Option Errc

/-- Accumulator of the resolution-update loop. -/
structure ResolutionStepAcc where
  partial_resolutions :
    List (PartialResolutionKey × List PartialResolutionEntry)
  resolutions : List (Nat × List Nat)
  handler_calls : List HandlerCall
deriving DecidableEq

/-- The loop of `handle_resolution_update_step` over the snapshot of the
parent's partial-resolution entries.  Projection hits call the handler and
abort on its failure exactly as the source does (leaving the mutations made
so far in place); non-projected hits append to `resolutions`; extensions are
appended at the key of the newly inserted node. -/
def resolution_update_loop (handler : Handler) (st : SearchState)
    (is_auto_generated : Bool) (loc : NodeLocator) (node_id : Nat) :
    List PartialResolutionEntry → ResolutionStepAcc →
    ResolutionStepAcc × Option Errc
  | [], acc => (acc, none)
  | entry :: rest, acc =>
      let col := st.column_get entry.1
      let (pushes, final_add) := process_partial_entry col entry.1 entry.2 loc
      let partials := pushes.foldl
        (fun pr p => alist_append_entry pr (node_id, is_auto_generated) p)
        acc.partial_resolutions
      if final_add then
        match alist_find st.projected_columns entry.1 with
        | some original_key =>
            let call := HandlerCall.HandleProjectionResolution is_auto_generated
              node_id original_key
            let acc' := { acc with
              partial_resolutions := partials,
              handler_calls := acc.handler_calls ++ [call] }
            match handler call with
            | some e => (acc', some e)
            | none => resolution_update_loop handler st is_auto_generated loc
                node_id rest acc'
        | none =>
            resolution_update_loop handler st is_auto_generated loc node_id rest
              { acc with
                partial_resolutions := partials,
                resolutions := alist_append_entry acc.resolutions entry.1
                  node_id }
      else
        resolution_update_loop handler st is_auto_generated loc node_id rest
          { acc with partial_resolutions := partials }

/-- Translation of `Deserializer::handle_resolution_update_step`: look up the
partial resolutions anchored at the inserted node's parent (a missing key is
a no-op) and run the loop above over that snapshot. -/
def handle_resolution_update_step (handler : Handler) (st : SearchState)
    (is_auto_generated : Bool) (loc : NodeLocator) (node_id : Nat) :
    SearchState × List HandlerCall × Option Errc :=
  match alist_find st.partial_resolutions (loc.parent_id, is_auto_generated) with
  | none => (st, [], none)
  | some entries =>
      let (acc, err) := resolution_update_loop handler st is_auto_generated loc
        node_id entries
        ⟨st.partial_resolutions, st.resolutions, []⟩
      ({ st with
          partial_resolutions := acc.partial_resolutions,
          resolutions := acc.resolutions },
        acc.handler_calls, err)

/-- The per-namespace `(node id, value)` bag of a log event
(`KeyValuePairLogEvent::NodeIdValuePairs`); keys are unique in streams the
decoder accepts. -/
abbrev NodeIdValuePairs := List (Nat × Option Value)

/-- The scanning loop of the pure-wildcard branch of
`Deserializer::evaluate_filter` over one namespace's pairs, threading the
`matched_any` flag; the second component is true when the loop returned
`True` early because a type-matching pair satisfied the filter. -/
def pure_wildcard_scan (col : ColumnDescriptor) (f : FilterExpr)
    (tree : SchemaTree) :
    NodeIdValuePairs → Bool → Bool × Bool
  | [], matched_any => (matched_any, false)
  | (node_id, value) :: rest, matched_any =>
      let node_type := (tree.get_node node_id).node_type
      let literal_type := node_and_value_to_literal_type node_type value
      if col.matches_type literal_type then
        if evaluate f literal_type value = EvaluatedValue.True then (true, true)
        else pure_wildcard_scan col f tree rest true
      else pure_wildcard_scan col f tree rest matched_any

/-- Translation of `Deserializer::evaluate_filter`.  A pure-wildcard column
scans every pair of both namespaces (ignoring the resolution maps and the
column's namespace): any type-matching pair satisfying the filter gives
`True`; else `False` if some pair matched the type, `Prune` if none did.  A
non-pure-wildcard column takes the first id of its final-resolution list that
occurs in the pair map of its namespace; no resolution entry or no occurring
id gives `Prune`; a literal type outside the column's flags gives `Prune`;
otherwise the filter-level evaluator decides. -/
def Deserializer.evaluate_filter (auto_tree user_tree : SchemaTree)
    (st : SearchState) (f : FilterExpr)
    (auto_pairs user_pairs : NodeIdValuePairs) : EvaluatedValue :=
  let col := st.column_get f.column_index
  if col.is_pure_wildcard then
    let (matched_any, found) := pure_wildcard_scan col f auto_tree auto_pairs
      false
    if found then EvaluatedValue.True
    else
      let (matched_any2, found2) := pure_wildcard_scan col f user_tree
        user_pairs matched_any
      if found2 then EvaluatedValue.True
      else if ¬ matched_any2 then EvaluatedValue.Prune
      else EvaluatedValue.False
  else
    match alist_find st.resolutions f.column_index with
    | none => EvaluatedValue.Prune
    | some matching_nodes =>
        let autogen := cAutogenNamespace == col.descriptor_namespace
        let relevant_field_pairs := if autogen then auto_pairs else user_pairs
        match matching_nodes.find?
            (fun id => (alist_find relevant_field_pairs id).isSome) with
        | none => EvaluatedValue.Prune
        | some matched_node_id =>
            let relevant_schema_tree := if autogen then auto_tree else user_tree
            let node_type :=
              (relevant_schema_tree.get_node matched_node_id).node_type
            let value :=
              (alist_find relevant_field_pairs matched_node_id).getD none
            let literal_type := node_and_value_to_literal_type node_type value
            if ¬ col.matches_type literal_type then EvaluatedValue.Prune
            else evaluate f literal_type value

mutual
/-- Translation of `Deserializer::evaluate_recursive`.  `And` and `Or` nodes
run their operand loops; a filter leaf evaluates `evaluate_filter` and then
applies its inversion flag, never changing `Prune`.  The source leaves
`EmptyExpr` unhandled (a `TODO` in the deserializer casts it to a filter);
the embedding gives it the harmless value `Prune`, on which no theorem
depends. -/
def Deserializer.evaluate_recursive (auto_tree user_tree : SchemaTree)
    (st : SearchState) (auto_pairs user_pairs : NodeIdValuePairs) :
    Expr → EvaluatedValue
  | Expr.AndExpr inverted ops =>
      Deserializer.eval_and_ops auto_tree user_tree st auto_pairs user_pairs
        inverted ops
  | Expr.OrExpr inverted ops =>
      Deserializer.eval_or_ops auto_tree user_tree st auto_pairs user_pairs
        inverted true ops
  | Expr.Filter f =>
      let result := Deserializer.evaluate_filter auto_tree user_tree st f
        auto_pairs user_pairs
      if result = EvaluatedValue.Prune then EvaluatedValue.Prune
      else if f.inverted = false then result
      else if result = EvaluatedValue.True then EvaluatedValue.False
      else EvaluatedValue.True
  | Expr.EmptyExpr => EvaluatedValue.Prune

/-- The `And` operand loop: the first operand evaluating `Prune` returns
`Prune`; the first evaluating `False` returns `False` (`True` when inverted);
if every operand evaluates `True` the loop falls through to `True` (`False`
when inverted). -/
def Deserializer.eval_and_ops (auto_tree user_tree : SchemaTree)
    (st : SearchState) (auto_pairs user_pairs : NodeIdValuePairs)
    (inverted : Bool) : List Expr → EvaluatedValue
  | [] => if inverted then EvaluatedValue.False else EvaluatedValue.True
  | e :: rest =>
      match Deserializer.evaluate_recursive auto_tree user_tree st auto_pairs
          user_pairs e with
      | EvaluatedValue.Prune => EvaluatedValue.Prune
      | EvaluatedValue.False =>
          if inverted then EvaluatedValue.True else EvaluatedValue.False
      | EvaluatedValue.True =>
          Deserializer.eval_and_ops auto_tree user_tree st auto_pairs
            user_pairs inverted rest

/-- The `Or` operand loop with its `all_prune` flag: the first operand
evaluating `True` returns `True` (`False` when inverted); a `False` operand
clears the flag; if the loop completes with the flag still set the result is
`Prune`, otherwise `False` (`True` when inverted). -/
def Deserializer.eval_or_ops (auto_tree user_tree : SchemaTree)
    (st : SearchState) (auto_pairs user_pairs : NodeIdValuePairs)
    (inverted : Bool) : Bool → List Expr → EvaluatedValue
  | all_prune, [] =>
      if all_prune then EvaluatedValue.Prune
      else if inverted then EvaluatedValue.True else EvaluatedValue.False
  | all_prune, e :: rest =>
      match Deserializer.evaluate_recursive auto_tree user_tree st auto_pairs
          user_pairs e with
      | EvaluatedValue.True =>
          if inverted then EvaluatedValue.False else EvaluatedValue.True
      | EvaluatedValue.False =>
          Deserializer.eval_or_ops auto_tree user_tree st auto_pairs user_pairs
            inverted false rest
      | EvaluatedValue.Prune =>
          Deserializer.eval_or_ops auto_tree user_tree st auto_pairs user_pairs
            inverted all_prune rest
end

/-- Translation of `Deserializer::evaluate`: a null query accepts every
event; otherwise evaluate the query tree recursively. -/
def Deserializer.evaluate (auto_tree user_tree : SchemaTree) (st : SearchState)
    (query : Option Expr) (auto_pairs user_pairs : NodeIdValuePairs) :
    EvaluatedValue :=
  match query with
  | none => EvaluatedValue.True
  | some e => Deserializer.evaluate_recursive auto_tree user_tree st auto_pairs
      user_pairs e

mutual
/-- The filter expressions reachable in a query tree — the contents the
work-list walk of `initialize_partial_resolutions` visits.  The source
traverses with an explicit stack, which visits children in reverse operand
order; only per-column membership matters downstream, so the embedding visits
them in operand order. -/
def collect_filter_exprs : Expr → List FilterExpr
  | Expr.AndExpr _ ops => collect_filter_exprs_list ops
  | Expr.OrExpr _ ops => collect_filter_exprs_list ops
  | Expr.Filter f => [f]
  | Expr.EmptyExpr => []

def collect_filter_exprs_list : List Expr → List FilterExpr
  | [] => []
  | e :: rest => collect_filter_exprs e ++ collect_filter_exprs_list rest
end

/-- Translation of `Deserializer::initialize_partial_resolutions`: anchor one
partial resolution at the root for every projected column, then for every
non-pure-wildcard filter column of the query with a non-empty token list
anchor `(column, first token)` — and also `(column, second token)` when the
first token is a wildcard, covering its zero-width match.  The two loop
bodies are split out as `init_projected_step` and `init_filter_step`. -/
def init_projected_step (st : SearchState) (p : Nat × String) : SearchState :=
  let col := st.column_get p.1
  let key : PartialResolutionKey :=
    (cRootId, cAutogenNamespace == col.descriptor_namespace)
  let pr := alist_append_entry st.partial_resolutions key (p.1, 0)
  { st with partial_resolutions := pr }

def init_filter_step (st : SearchState) (f : FilterExpr) : SearchState :=
  let col := st.column_get f.column_index
  if col.is_pure_wildcard then st
  else if col.descriptors = [] then st
  else
    let key : PartialResolutionKey :=
      (cRootId, cAutogenNamespace == col.descriptor_namespace)
    let pr1 := alist_append_entry st.partial_resolutions key
      (f.column_index, 0)
    let st' := { st with partial_resolutions := pr1 }
    if col.descriptors.get? 0 = some DescriptorToken.wildcard then
      let pr2 := alist_append_entry st'.partial_resolutions key
        (f.column_index, 1)
      { st' with partial_resolutions := pr2 }
    else st'

def initialize_partial_resolutions (columns : List ColumnDescriptor)
    (projected_columns : List (Nat × String)) (query : Option Expr) :
    SearchState :=
  let st0 : SearchState := ⟨columns, [], [], projected_columns⟩
  let st1 := projected_columns.foldl init_projected_step st0
  match query with
  | none => st1
  | some q => (collect_filter_exprs q).foldl init_filter_step st1

/-- The framed IR units, as produced by the external wire decoder (the
decoder itself is out of scope per the spec; units arrive already framed). -/
inductive IrUnit where
  | LogEvent (auto_pairs user_pairs : NodeIdValuePairs)
  | SchemaTreeNodeInsertion (is_auto_generated : Bool) (loc : NodeLocator)
  | UtcOffsetChange (new_offset : Int)
  | EndOfStream

/-- `IrUnitType`, the success value of `deserialize_next_ir_unit`. -/
inductive IrUnitType where
  | LogEvent
  | SchemaTreeNodeInsertion
  | UtcOffsetChange
  | EndOfStream
deriving DecidableEq

/-- The deserializer's state (handler and metadata excluded: the handler is
passed as a function, and the metadata plays no role in the claims). -/
structure Deserializer where
  auto_gen_keys_schema_tree : SchemaTree
  user_gen_keys_schema_tree : SchemaTree
  utc_offset : Int
  is_complete : Bool
  query : Option Expr
  search : SearchState

/-- Result of one `deserialize_next_ir_unit` call: the outcome, the state
afterwards, the units not yet consumed from the stream, and the handler
callbacks invoked during the call. -/
structure StepResult where
  outcome : Except Errc IrUnitType
  state : Deserializer
  remaining : List IrUnit
  handler_calls : List HandlerCall

/-- Translation of `Deserializer::deserialize_next_ir_unit` over a stream of
already-decoded units.  A completed stream refuses with
`operation_not_permitted` before touching the stream.  A log event is
evaluated against the query; a result other than `True` drops the event with
the `no_message` status and no handler call; otherwise the materialized event
is handed to the handler (`KeyValuePairLogEvent::create` is modelled from the
spec as succeeding — its validation lives outside the provided sources).  A
schema-tree node insertion whose locator already exists is a protocol error;
otherwise the node is inserted, the resolution update step runs (including
its projection callbacks), and the insertion handler is called.  A UTC offset
change calls the handler with old and new offsets and updates the offset on
success.  End-of-stream calls the handler and marks the stream complete on
success.  An exhausted stream reports the truncation code the tag read would
produce. -/
def deserialize_next_ir_unit (handler : Handler) (d : Deserializer)
    (stream : List IrUnit) : StepResult :=
    if d.is_complete then
      ⟨Except.error Errc.operation_not_permitted, d, stream, []⟩
    else
      match stream with
      | [] => ⟨Except.error Errc.result_out_of_range, d, [], []⟩
      | IrUnit.LogEvent auto_pairs user_pairs :: rest =>
          let evaluated_value := Deserializer.evaluate
            d.auto_gen_keys_schema_tree d.user_gen_keys_schema_tree d.search
            d.query auto_pairs user_pairs
          if evaluated_value ≠ EvaluatedValue.True then
            ⟨Except.error Errc.no_message, d, rest, []⟩
          else
            let call := HandlerCall.HandleLogEvent auto_pairs user_pairs
              d.utc_offset
            match handler call with
            | some e => ⟨Except.error e, d, rest, [call]⟩
            | none => ⟨Except.ok IrUnitType.LogEvent, d, rest, [call]⟩
      | IrUnit.SchemaTreeNodeInsertion is_auto_generated loc :: rest =>
          let tree := if is_auto_generated then d.auto_gen_keys_schema_tree
            else d.user_gen_keys_schema_tree
          if tree.has_node loc then
            ⟨Except.error Errc.protocol_error, d, rest, []⟩
          else
            let inserted := tree.insert_node loc
            let d1 :=
              if is_auto_generated then
                { d with auto_gen_keys_schema_tree := inserted.1 }
              else { d with user_gen_keys_schema_tree := inserted.1 }
            let step := handle_resolution_update_step handler d1.search
              is_auto_generated loc inserted.2
            let d2 := { d1 with search := step.1 }
            match step.2.2 with
            | some e => ⟨Except.error e, d2, rest, step.2.1⟩
            | none =>
                let call := HandlerCall.HandleSchemaTreeNodeInsertion
                  is_auto_generated loc
                match handler call with
                | some e => ⟨Except.error e, d2, rest, step.2.1 ++ [call]⟩
                | none => ⟨Except.ok IrUnitType.SchemaTreeNodeInsertion, d2,
                    rest, step.2.1 ++ [call]⟩
      | IrUnit.UtcOffsetChange new_offset :: rest =>
          let call := HandlerCall.HandleUtcOffsetChange d.utc_offset new_offset
          match handler call with
          | some e => ⟨Except.error e, d, rest, [call]⟩
          | none => ⟨Except.ok IrUnitType.UtcOffsetChange,
              { d with utc_offset := new_offset }, rest, [call]⟩
      | IrUnit.EndOfStream :: rest =>
          let call := HandlerCall.HandleEndOfStream
          match handler call with
          | some e => ⟨Except.error e, d, rest, [call]⟩
          | none => ⟨Except.ok IrUnitType.EndOfStream,
              { d with is_complete := true }, rest, [call]⟩

/-- A deserializer as constructed by the factory: fresh trees, offset 0, the
preprocessed query and the projected-column map, with
`initialize_partial_resolutions` already run (the constructor runs it). -/
def mk_deserializer (columns : List ColumnDescriptor)
    (projected_columns : List (Nat × String)) (query : Option Expr) :
    Deserializer :=
  ⟨SchemaTree.initial, SchemaTree.initial, 0, false, query,
    initialize_partial_resolutions columns projected_columns query⟩

/-- A handler that always succeeds. -/
def trivial_handler : Handler := fun _ => none

/-- Run a sequence of schema-tree node insertions through the deserializer
with the always-succeeding handler, requiring each insertion to be one the
wire decoder admits: the parent exists, the parent is an `Obj` node, and the
locator is fresh.  Violating insertions yield `none`. -/
def run_insertions : Deserializer → List (Bool × NodeLocator) →
    Option Deserializer
  | d, [] => some d
  | d, (is_auto_generated, loc) :: rest =>
      let tree := if is_auto_generated then d.auto_gen_keys_schema_tree
        else d.user_gen_keys_schema_tree
      if loc.parent_id < tree.size
          ∧ (tree.get_node loc.parent_id).node_type = NodeType.Obj
          ∧ ¬ tree.has_node loc then
        let step := deserialize_next_ir_unit trivial_handler d
          [IrUnit.SchemaTreeNodeInsertion is_auto_generated loc]
        run_insertions step.state rest
      else none

/-!
Specification-side definitions.  These are written from the words of the
specification (not from the source) and are used to state the claims about
the incremental resolver and the tri-valued combinator.
-/

/-- What the inversion flag does according to the spec: swap `True` and
`False`, never touching `Prune`. -/
def apply_inversion (inverted : Bool) : EvaluatedValue → EvaluatedValue
  | EvaluatedValue.True =>
      if inverted then EvaluatedValue.False else EvaluatedValue.True
  | EvaluatedValue.False =>
      if inverted then EvaluatedValue.True else EvaluatedValue.False
  | EvaluatedValue.Prune => EvaluatedValue.Prune

/-- Declarative token matching with single-segment wildcard semantics: a
literal token consumes exactly its own segment, a wildcard consumes zero or
one segment (the zero-width case covers leading, interior and trailing
wildcards).  Written from the claim's words, independent of the resolver. -/
def tokens_match_path : List DescriptorToken → List String → Bool
  | [], [] => true
  | [], _ :: _ => false
  | DescriptorToken.lit _ :: _, [] => false
  | DescriptorToken.lit s :: ts, p :: ps => s == p && tokens_match_path ts ps
  | DescriptorToken.wildcard :: ts, ps =>
      tokens_match_path ts ps
        || (match ps with
            | [] => false
            | _ :: ps2 => tokens_match_path ts ps2)

/-- The same matching relation as an inductive derivation, convenient for
induction. -/
inductive TokMatch : List DescriptorToken → List String → Prop where
  | nil : TokMatch [] []
  | lit (s : String) {ts : List DescriptorToken} {ps : List String} :
      TokMatch ts ps → TokMatch (DescriptorToken.lit s :: ts) (s :: ps)
  | wild_zero {ts : List DescriptorToken} {ps : List String} :
      TokMatch ts ps → TokMatch (DescriptorToken.wildcard :: ts) ps
  | wild_one (p : String) {ts : List DescriptorToken} {ps : List String} :
      TokMatch ts ps → TokMatch (DescriptorToken.wildcard :: ts) (p :: ps)

/-- Adjacent wildcards never survive column construction
(`ColumnDescriptor::simplify_descriptor_wildcards` collapses them). -/
def no_adjacent_wildcards : List DescriptorToken → Bool
  | DescriptorToken.wildcard :: DescriptorToken.wildcard :: _ => false
  | _ :: rest => no_adjacent_wildcards rest
  | [] => true

/-- The full key path of a node: the key names from the root (excluded) down
to the node.  Out-of-tree parent links (which valid streams never produce)
stop the walk. -/
def SchemaTree.path_to (t : SchemaTree) (id : Nat) : List String :=
  if id = 0 then []
  else
    let n := t.get_node id
    if h : n.parent_id < id then t.path_to n.parent_id ++ [n.key_name]
    else [n.key_name]
termination_by id
decreasing_by exact h

/-!
Characterizations of the tri-valued combinator loops.
-/

section Combinator

variable (auto_tree user_tree : SchemaTree) (st : SearchState)
variable (auto_pairs user_pairs : NodeIdValuePairs)

/-- The `Or` operand loop computes: any operand evaluating `True` gives the
inverted `True`; otherwise `Prune` when the incoming flag is set and every
operand evaluates `Prune`; otherwise the inverted `False`. -/
theorem eval_or_ops_characterization (inverted all_prune : Bool)
    (ops : List Expr) :
    Deserializer.eval_or_ops auto_tree user_tree st auto_pairs user_pairs
        inverted all_prune ops =
      (if ∃ e ∈ ops, Deserializer.evaluate_recursive auto_tree user_tree st
          auto_pairs user_pairs e = EvaluatedValue.True then
        apply_inversion inverted EvaluatedValue.True
      else if all_prune = true ∧ ∀ e ∈ ops, Deserializer.evaluate_recursive
          auto_tree user_tree st auto_pairs user_pairs e
            = EvaluatedValue.Prune then
        EvaluatedValue.Prune
      else apply_inversion inverted EvaluatedValue.False) := by
  induction ops generalizing all_prune with
  | nil => cases all_prune <;>
      simp [Deserializer.eval_or_ops, apply_inversion]
  | cons e rest ih =>
      cases h : Deserializer.evaluate_recursive auto_tree user_tree st
          auto_pairs user_pairs e with
      | True =>
          simp [Deserializer.eval_or_ops, h, apply_inversion]
      | False =>
          rw [Deserializer.eval_or_ops, h, ih false]
          simp [h]
      | Prune =>
          rw [Deserializer.eval_or_ops, h, ih all_prune]
          simp [h]

/-- The `And` operand loop returns the inverted `True` when every operand
evaluates `True`. -/
theorem eval_and_ops_all_true (inverted : Bool) (ops : List Expr)
    (h : ∀ e ∈ ops, Deserializer.evaluate_recursive auto_tree user_tree st
      auto_pairs user_pairs e = EvaluatedValue.True) :
    Deserializer.eval_and_ops auto_tree user_tree st auto_pairs user_pairs
        inverted ops = apply_inversion inverted EvaluatedValue.True := by
  induction ops with
  | nil => cases inverted <;> simp [Deserializer.eval_and_ops, apply_inversion]
  | cons e rest ih =>
      rw [Deserializer.eval_and_ops, h e (List.mem_cons_self e rest)]
      exact ih fun x hx => h x (List.mem_cons_of_mem e hx)

/-- The `And` operand loop returns `Prune` as soon as it reaches an operand
evaluating `Prune` with every earlier operand evaluating `True`. -/
theorem eval_and_ops_first_prune (inverted : Bool) (l1 : List Expr) (x : Expr)
    (l2 : List Expr)
    (h1 : ∀ e ∈ l1, Deserializer.evaluate_recursive auto_tree user_tree st
      auto_pairs user_pairs e = EvaluatedValue.True)
    (hx : Deserializer.evaluate_recursive auto_tree user_tree st auto_pairs
      user_pairs x = EvaluatedValue.Prune) :
    Deserializer.eval_and_ops auto_tree user_tree st auto_pairs user_pairs
        inverted (l1 ++ x :: l2) = EvaluatedValue.Prune := by
  induction l1 with
  | nil => rw [List.nil_append, Deserializer.eval_and_ops, hx]
  | cons a l1' ih =>
      rw [List.cons_append, Deserializer.eval_and_ops,
        h1 a (List.mem_cons_self a l1')]
      exact ih fun e he => h1 e (List.mem_cons_of_mem a he)

/-- The `And` operand loop returns the inverted `False` as soon as it reaches
an operand evaluating `False` with every earlier operand evaluating `True`. -/
theorem eval_and_ops_first_false (inverted : Bool) (l1 : List Expr) (x : Expr)
    (l2 : List Expr)
    (h1 : ∀ e ∈ l1, Deserializer.evaluate_recursive auto_tree user_tree st
      auto_pairs user_pairs e = EvaluatedValue.True)
    (hx : Deserializer.evaluate_recursive auto_tree user_tree st auto_pairs
      user_pairs x = EvaluatedValue.False) :
    Deserializer.eval_and_ops auto_tree user_tree st auto_pairs user_pairs
        inverted (l1 ++ x :: l2) = apply_inversion inverted
          EvaluatedValue.False := by
  induction l1 with
  | nil =>
      rw [List.nil_append, Deserializer.eval_and_ops, hx]
      cases inverted <;> simp [apply_inversion]
  | cons a l1' ih =>
      rw [List.cons_append, Deserializer.eval_and_ops,
        h1 a (List.mem_cons_self a l1')]
      exact ih fun e he => h1 e (List.mem_cons_of_mem a he)

/-- When no operand evaluates `Prune` the `And` loop is the classical
conjunction (modulo inversion). -/
theorem eval_and_ops_no_prune (inverted : Bool) (ops : List Expr)
    (h : ∀ e ∈ ops, Deserializer.evaluate_recursive auto_tree user_tree st
      auto_pairs user_pairs e ≠ EvaluatedValue.Prune) :
    Deserializer.eval_and_ops auto_tree user_tree st auto_pairs user_pairs
        inverted ops =
      (if ∀ e ∈ ops, Deserializer.evaluate_recursive auto_tree user_tree st
          auto_pairs user_pairs e = EvaluatedValue.True then
        apply_inversion inverted EvaluatedValue.True
      else apply_inversion inverted EvaluatedValue.False) := by
  induction ops with
  | nil => cases inverted <;> simp [Deserializer.eval_and_ops, apply_inversion]
  | cons e rest ih =>
      cases he : Deserializer.evaluate_recursive auto_tree user_tree st
          auto_pairs user_pairs e with
      | True =>
          rw [Deserializer.eval_and_ops, he,
            ih fun x hx => h x (List.mem_cons_of_mem e hx)]
          simp [he]
      | False =>
          rw [Deserializer.eval_and_ops, he]
          simp [he, apply_inversion]
      | Prune => exact absurd he (h e (List.mem_cons_self e rest))

/-- When no operand evaluates `False` the `And` loop returns `Prune` exactly
when some operand evaluates `Prune`. -/
theorem eval_and_ops_no_false (inverted : Bool) (ops : List Expr)
    (h : ∀ e ∈ ops, Deserializer.evaluate_recursive auto_tree user_tree st
      auto_pairs user_pairs e ≠ EvaluatedValue.False) :
    Deserializer.eval_and_ops auto_tree user_tree st auto_pairs user_pairs
        inverted ops =
      (if ∀ e ∈ ops, Deserializer.evaluate_recursive auto_tree user_tree st
          auto_pairs user_pairs e = EvaluatedValue.True then
        apply_inversion inverted EvaluatedValue.True
      else EvaluatedValue.Prune) := by
  induction ops with
  | nil => cases inverted <;> simp [Deserializer.eval_and_ops, apply_inversion]
  | cons e rest ih =>
      cases he : Deserializer.evaluate_recursive auto_tree user_tree st
          auto_pairs user_pairs e with
      | True =>
          rw [Deserializer.eval_and_ops, he,
            ih fun x hx => h x (List.mem_cons_of_mem e hx)]
          simp [he]
      | False => exact absurd he (h e (List.mem_cons_self e rest))
      | Prune =>
          rw [Deserializer.eval_and_ops, he]
          simp [he]

end Combinator

/-!
Concrete fixture shared by the combinator counterexamples and witnesses: a
user-namespace schema tree with one `Int` node under the root, a log event
carrying that node, a pure-wildcard column (all types) and a column `zz`
that never resolves.  The `NEXISTS` pure-wildcard filter evaluates `False`
on this event; the `zz` filter evaluates `Prune`.
-/

def fx_cols : List ColumnDescriptor :=
  [⟨"", [DescriptorToken.wildcard], cAllTypes⟩,
   ⟨"", [DescriptorToken.lit "zz"], cAllTypes⟩]

def fx_user_tree : SchemaTree :=
  ⟨[⟨0, "", NodeType.Obj⟩, ⟨0, "a", NodeType.Int⟩]⟩

def fx_st : SearchState := ⟨fx_cols, [], [], []⟩

def fx_user_pairs : NodeIdValuePairs := [(1, some (Value.IntVal 5))]

def filter_to_false : Expr :=
  Expr.Filter ⟨0, FilterOperation.NEXISTS, none, false⟩

def filter_to_prune : Expr :=
  Expr.Filter ⟨1, FilterOperation.EQ, some (SearchLiteral.IntLit 5), false⟩

/-- Claim C3: for every `Or` expression and every log event, if any child
evaluates to `True` the `Or` evaluates to `True`; else if every child
evaluates to `Prune` the `Or` evaluates to `Prune`; otherwise it evaluates to
`False`; the inverted flag swaps only `True` and `False` and never changes
`Prune`. -/
theorem claim_C3_or_semantics (auto_tree user_tree : SchemaTree)
    (st : SearchState) (auto_pairs user_pairs : NodeIdValuePairs)
    (inverted : Bool) (ops : List Expr) :
    Deserializer.evaluate_recursive auto_tree user_tree st auto_pairs
        user_pairs (Expr.OrExpr inverted ops) =
      (if ∃ e ∈ ops, Deserializer.evaluate_recursive auto_tree user_tree st
          auto_pairs user_pairs e = EvaluatedValue.True then
        apply_inversion inverted EvaluatedValue.True
      else if ∀ e ∈ ops, Deserializer.evaluate_recursive auto_tree user_tree
          st auto_pairs user_pairs e = EvaluatedValue.Prune then
        EvaluatedValue.Prune
      else apply_inversion inverted EvaluatedValue.False) := by
  rw [Deserializer.evaluate_recursive, eval_or_ops_characterization]
  simp

/-- Claim C1 counterexample: in the `And` of a child evaluating `False`
followed by a child evaluating `Prune`, some child evaluates `Prune` yet the
`And` evaluates `False`, not `Prune` — the loop returns at the first
non-`True` child. -/
theorem claim_C1_counterexample :
    Deserializer.evaluate_recursive SchemaTree.initial fx_user_tree fx_st []
        fx_user_pairs filter_to_prune = EvaluatedValue.Prune
      ∧ Deserializer.evaluate_recursive SchemaTree.initial fx_user_tree fx_st
        [] fx_user_pairs
          (Expr.AndExpr false [filter_to_false, filter_to_prune])
        = EvaluatedValue.False := by
  exact ⟨rfl, rfl⟩

/-- Claim C1 (amended): the `And` evaluates its operands in order and is
decided by the first operand that does not evaluate to `True`: if every
operand evaluates `True` the `And` is `True` (`False` if inverted); if the
first non-`True` operand evaluates `Prune` the `And` is `Prune` regardless of
the inverted flag; if it evaluates `False` the `And` is `False` (`True` if
inverted). -/
theorem claim_C1_amended (auto_tree user_tree : SchemaTree) (st : SearchState)
    (auto_pairs user_pairs : NodeIdValuePairs) (inverted : Bool)
    (ops : List Expr) :
    ((∀ e ∈ ops, Deserializer.evaluate_recursive auto_tree user_tree st
        auto_pairs user_pairs e = EvaluatedValue.True) →
      Deserializer.evaluate_recursive auto_tree user_tree st auto_pairs
        user_pairs (Expr.AndExpr inverted ops)
        = apply_inversion inverted EvaluatedValue.True)
    ∧ (∀ l1 x l2, ops = l1 ++ x :: l2 →
        (∀ e ∈ l1, Deserializer.evaluate_recursive auto_tree user_tree st
          auto_pairs user_pairs e = EvaluatedValue.True) →
        Deserializer.evaluate_recursive auto_tree user_tree st auto_pairs
          user_pairs x = EvaluatedValue.Prune →
        Deserializer.evaluate_recursive auto_tree user_tree st auto_pairs
          user_pairs (Expr.AndExpr inverted ops) = EvaluatedValue.Prune)
    ∧ (∀ l1 x l2, ops = l1 ++ x :: l2 →
        (∀ e ∈ l1, Deserializer.evaluate_recursive auto_tree user_tree st
          auto_pairs user_pairs e = EvaluatedValue.True) →
        Deserializer.evaluate_recursive auto_tree user_tree st auto_pairs
          user_pairs x = EvaluatedValue.False →
        Deserializer.evaluate_recursive auto_tree user_tree st auto_pairs
          user_pairs (Expr.AndExpr inverted ops)
          = apply_inversion inverted EvaluatedValue.False) := by
  refine ⟨?_, ?_, ?_⟩
  · intro h
    rw [Deserializer.evaluate_recursive]
    exact eval_and_ops_all_true auto_tree user_tree st auto_pairs user_pairs
      inverted ops h
  · intro l1 x l2 hsplit h1 hx
    rw [Deserializer.evaluate_recursive, hsplit]
    exact eval_and_ops_first_prune auto_tree user_tree st auto_pairs
      user_pairs inverted l1 x l2 h1 hx
  · intro l1 x l2 hsplit h1 hx
    rw [Deserializer.evaluate_recursive, hsplit]
    exact eval_and_ops_first_false auto_tree user_tree st auto_pairs
      user_pairs inverted l1 x l2 h1 hx

/-- Witness for the amended claim C1 at a concrete input: an `And` whose
single operand evaluates `Prune` evaluates `Prune`. -/
theorem claim_C1_amended_witness :
    Deserializer.evaluate_recursive SchemaTree.initial fx_user_tree fx_st []
        fx_user_pairs (Expr.AndExpr false [filter_to_prune])
      = EvaluatedValue.Prune :=
  (claim_C1_amended SchemaTree.initial fx_user_tree fx_st [] fx_user_pairs
    false [filter_to_prune]).2.1 [] filter_to_prune [] rfl
    (by intro e he; exact absurd he (List.not_mem_nil e)) (by decide)

/-- Claim C4 counterexample: swapping the two children of an `And` — one
evaluating `False`, one evaluating `Prune` — changes the evaluation result,
so `And` evaluation is not invariant under permutation of its operands. -/
theorem claim_C4_counterexample :
    List.Perm [filter_to_false, filter_to_prune]
      [filter_to_prune, filter_to_false]
    ∧ Deserializer.evaluate_recursive SchemaTree.initial fx_user_tree fx_st []
        fx_user_pairs (Expr.AndExpr false [filter_to_false, filter_to_prune])
      = EvaluatedValue.False
    ∧ Deserializer.evaluate_recursive SchemaTree.initial fx_user_tree fx_st []
        fx_user_pairs (Expr.AndExpr false [filter_to_prune, filter_to_false])
      = EvaluatedValue.Prune :=
  ⟨List.Perm.swap filter_to_prune filter_to_false [], rfl, rfl⟩

/-- Claim C4 (amended): `Or` evaluation is invariant under any permutation of
the operands; `And` evaluation is invariant under any permutation provided
the operands do not include both one evaluating `False` and one evaluating
`Prune` (with such a pair, the result depends on which comes first). -/
theorem claim_C4_amended (auto_tree user_tree : SchemaTree) (st : SearchState)
    (auto_pairs user_pairs : NodeIdValuePairs) (inverted : Bool)
    (ops ops2 : List Expr) (hperm : List.Perm ops ops2) :
    (Deserializer.evaluate_recursive auto_tree user_tree st auto_pairs
        user_pairs (Expr.OrExpr inverted ops)
      = Deserializer.evaluate_recursive auto_tree user_tree st auto_pairs
        user_pairs (Expr.OrExpr inverted ops2))
    ∧ (¬ ((∃ e ∈ ops, Deserializer.evaluate_recursive auto_tree user_tree st
          auto_pairs user_pairs e = EvaluatedValue.False)
        ∧ (∃ e ∈ ops, Deserializer.evaluate_recursive auto_tree user_tree st
          auto_pairs user_pairs e = EvaluatedValue.Prune)) →
      Deserializer.evaluate_recursive auto_tree user_tree st auto_pairs
          user_pairs (Expr.AndExpr inverted ops)
        = Deserializer.evaluate_recursive auto_tree user_tree st auto_pairs
          user_pairs (Expr.AndExpr inverted ops2)) := by
  have hex : ∀ v : EvaluatedValue,
      ((∃ e ∈ ops, Deserializer.evaluate_recursive auto_tree user_tree st
        auto_pairs user_pairs e = v)
      ↔ (∃ e ∈ ops2, Deserializer.evaluate_recursive auto_tree user_tree st
        auto_pairs user_pairs e = v)) := by
    intro v
    constructor
    · rintro ⟨e, he, hv⟩; exact ⟨e, hperm.mem_iff.1 he, hv⟩
    · rintro ⟨e, he, hv⟩; exact ⟨e, hperm.mem_iff.2 he, hv⟩
  have hall : ∀ v : EvaluatedValue,
      ((∀ e ∈ ops, Deserializer.evaluate_recursive auto_tree user_tree st
        auto_pairs user_pairs e = v)
      ↔ (∀ e ∈ ops2, Deserializer.evaluate_recursive auto_tree user_tree st
        auto_pairs user_pairs e = v)) := by
    intro v
    constructor
    · intro h e he; exact h e (hperm.mem_iff.2 he)
    · intro h e he; exact h e (hperm.mem_iff.1 he)
  constructor
  · rw [Deserializer.evaluate_recursive, Deserializer.evaluate_recursive,
      eval_or_ops_characterization, eval_or_ops_characterization]
    simp only [hex, hall, true_and]
  · intro hside
    by_cases hp : ∀ e ∈ ops, Deserializer.evaluate_recursive auto_tree
        user_tree st auto_pairs user_pairs e ≠ EvaluatedValue.Prune
    · have hp2 : ∀ e ∈ ops2, Deserializer.evaluate_recursive auto_tree
          user_tree st auto_pairs user_pairs e ≠ EvaluatedValue.Prune :=
        fun e he => hp e (hperm.mem_iff.2 he)
      rw [Deserializer.evaluate_recursive, Deserializer.evaluate_recursive,
        eval_and_ops_no_prune auto_tree user_tree st auto_pairs user_pairs
          inverted ops hp,
        eval_and_ops_no_prune auto_tree user_tree st auto_pairs user_pairs
          inverted ops2 hp2]
      simp only [hall]
    · have hexp : ∃ e ∈ ops, Deserializer.evaluate_recursive auto_tree
          user_tree st auto_pairs user_pairs e = EvaluatedValue.Prune := by
        push_neg at hp
        exact hp
      have hf : ∀ e ∈ ops, Deserializer.evaluate_recursive auto_tree
          user_tree st auto_pairs user_pairs e ≠ EvaluatedValue.False := by
        intro e he hfe
        exact hside ⟨⟨e, he, hfe⟩, hexp⟩
      have hf2 : ∀ e ∈ ops2, Deserializer.evaluate_recursive auto_tree
          user_tree st auto_pairs user_pairs e ≠ EvaluatedValue.False :=
        fun e he => hf e (hperm.mem_iff.2 he)
      rw [Deserializer.evaluate_recursive, Deserializer.evaluate_recursive,
        eval_and_ops_no_false auto_tree user_tree st auto_pairs user_pairs
          inverted ops hf,
        eval_and_ops_no_false auto_tree user_tree st auto_pairs user_pairs
          inverted ops2 hf2]
      simp only [hall]

/-- Witness for the amended claim C4 at a concrete input: swapping the
operands of an `Or` of a `False`-child and a `Prune`-child leaves the result
unchanged, and likewise for an `And` of two `Prune`-free children. -/
theorem claim_C4_amended_witness :
    (Deserializer.evaluate_recursive SchemaTree.initial fx_user_tree fx_st []
        fx_user_pairs (Expr.OrExpr false [filter_to_false, filter_to_prune])
      = Deserializer.evaluate_recursive SchemaTree.initial fx_user_tree fx_st
        [] fx_user_pairs
        (Expr.OrExpr false [filter_to_prune, filter_to_false]))
    ∧ (Deserializer.evaluate_recursive SchemaTree.initial fx_user_tree fx_st
        [] fx_user_pairs
        (Expr.AndExpr false [filter_to_false, filter_to_false])
      = Deserializer.evaluate_recursive SchemaTree.initial fx_user_tree fx_st
        [] fx_user_pairs
        (Expr.AndExpr false [filter_to_false, filter_to_false])) :=
  ⟨(claim_C4_amended SchemaTree.initial fx_user_tree fx_st [] fx_user_pairs
      false [filter_to_false, filter_to_prune]
      [filter_to_prune, filter_to_false]
      (List.Perm.swap filter_to_prune filter_to_false [])).1,
    (claim_C4_amended SchemaTree.initial fx_user_tree fx_st [] fx_user_pairs
      false [filter_to_false, filter_to_false]
      [filter_to_false, filter_to_false] (List.Perm.refl _)).2
      (by decide)⟩

/-!
The pure-wildcard filter path (claim C5).
-/

/-- The state with one column's namespace replaced (used to state namespace
independence). -/
def SearchState.with_column_namespace (st : SearchState) (idx : Nat)
    (ns2 : String) : SearchState :=
  { st with
    columns := st.columns.set idx
      ({ st.column_get idx with descriptor_namespace := ns2 }) }

/-- Closed form of the pure-wildcard scanning loop: if some pair's literal
type matches the column and satisfies the filter, the loop returns early with
`(true, true)`; otherwise it completes, reporting whether the incoming flag
or any pair's literal type matched. -/
theorem pure_wildcard_scan_eq (col : ColumnDescriptor) (f : FilterExpr)
    (tree : SchemaTree) (pairs : NodeIdValuePairs) (matched_any : Bool) :
    pure_wildcard_scan col f tree pairs matched_any =
      (if ∃ p ∈ pairs,
          col.matches_type (node_and_value_to_literal_type
            (tree.get_node p.1).node_type p.2) = true
          ∧ evaluate f (node_and_value_to_literal_type
            (tree.get_node p.1).node_type p.2) p.2 = EvaluatedValue.True then
        (true, true)
      else
        ((matched_any || pairs.any fun p =>
          col.matches_type (node_and_value_to_literal_type
            (tree.get_node p.1).node_type p.2)), false)) := by
  induction pairs generalizing matched_any with
  | nil => simp [pure_wildcard_scan]
  | cons p rest ih =>
      obtain ⟨node_id, value⟩ := p
      by_cases hm : col.matches_type (node_and_value_to_literal_type
          (tree.get_node node_id).node_type value) = true
      · by_cases hs : evaluate f (node_and_value_to_literal_type
            (tree.get_node node_id).node_type value) value
          = EvaluatedValue.True
        · simp [pure_wildcard_scan, hm, hs]
        · have hiff : (∃ p ∈ (node_id, value) :: rest,
              col.matches_type (node_and_value_to_literal_type
                (tree.get_node p.1).node_type p.2) = true
              ∧ evaluate f (node_and_value_to_literal_type
                (tree.get_node p.1).node_type p.2) p.2 = EvaluatedValue.True)
              ↔ (∃ p ∈ rest,
              col.matches_type (node_and_value_to_literal_type
                (tree.get_node p.1).node_type p.2) = true
              ∧ evaluate f (node_and_value_to_literal_type
                (tree.get_node p.1).node_type p.2) p.2
                  = EvaluatedValue.True) := by
            constructor
            · rintro ⟨p, hp, hMp, hSp⟩
              rcases List.mem_cons.mp hp with h1 | h2
              · rw [h1] at hSp; exact absurd hSp hs
              · exact ⟨p, h2, hMp, hSp⟩
            · rintro ⟨p, hp, hconj⟩
              exact ⟨p, List.mem_cons_of_mem _ hp, hconj⟩
          rw [pure_wildcard_scan]
          simp only [hm, if_true, hs, if_false]
          rw [ih true]
          simp only [hiff]
          by_cases hrest : ∃ p ∈ rest,
              col.matches_type (node_and_value_to_literal_type
                (tree.get_node p.1).node_type p.2) = true
              ∧ evaluate f (node_and_value_to_literal_type
                (tree.get_node p.1).node_type p.2) p.2 = EvaluatedValue.True
          · simp [hrest]
          · simp [hrest, hm]
      · have hiff : (∃ p ∈ (node_id, value) :: rest,
            col.matches_type (node_and_value_to_literal_type
              (tree.get_node p.1).node_type p.2) = true
            ∧ evaluate f (node_and_value_to_literal_type
              (tree.get_node p.1).node_type p.2) p.2 = EvaluatedValue.True)
            ↔ (∃ p ∈ rest,
            col.matches_type (node_and_value_to_literal_type
              (tree.get_node p.1).node_type p.2) = true
            ∧ evaluate f (node_and_value_to_literal_type
              (tree.get_node p.1).node_type p.2) p.2
                = EvaluatedValue.True) := by
          constructor
          · rintro ⟨p, hp, hMp, hSp⟩
            rcases List.mem_cons.mp hp with h1 | h2
            · rw [h1] at hMp; exact absurd hMp hm
            · exact ⟨p, h2, hMp, hSp⟩
          · rintro ⟨p, hp, hconj⟩
            exact ⟨p, List.mem_cons_of_mem _ hp, hconj⟩
        rw [pure_wildcard_scan]
        simp only [hm, if_false]
        rw [ih matched_any]
        simp only [hiff]
        by_cases hrest : ∃ p ∈ rest,
            col.matches_type (node_and_value_to_literal_type
              (tree.get_node p.1).node_type p.2) = true
            ∧ evaluate f (node_and_value_to_literal_type
              (tree.get_node p.1).node_type p.2) p.2 = EvaluatedValue.True
        · simp [hrest]
        · simp [hrest, hm]

/-- Claim C5: for a pure-wildcard column the filter evaluator scans the
`(node id, value)` pairs of both namespaces: `True` if some type-matching
pair satisfies the filter, `False` if some pair matched the type but none
satisfied, `Prune` if no pair matched the type — and the result is
independent of the resolution state and of the column's declared
namespace. -/
theorem claim_C5_pure_wildcard (auto_tree user_tree : SchemaTree)
    (st : SearchState) (f : FilterExpr)
    (auto_pairs user_pairs : NodeIdValuePairs)
    (hpure : (st.column_get f.column_index).is_pure_wildcard = true) :
    (Deserializer.evaluate_filter auto_tree user_tree st f auto_pairs
        user_pairs =
      (if (∃ p ∈ auto_pairs,
            (st.column_get f.column_index).matches_type
              (node_and_value_to_literal_type
                (auto_tree.get_node p.1).node_type p.2) = true
            ∧ evaluate f (node_and_value_to_literal_type
                (auto_tree.get_node p.1).node_type p.2) p.2
              = EvaluatedValue.True)
          ∨ (∃ p ∈ user_pairs,
            (st.column_get f.column_index).matches_type
              (node_and_value_to_literal_type
                (user_tree.get_node p.1).node_type p.2) = true
            ∧ evaluate f (node_and_value_to_literal_type
                (user_tree.get_node p.1).node_type p.2) p.2
              = EvaluatedValue.True) then
        EvaluatedValue.True
      else if (∃ p ∈ auto_pairs,
            (st.column_get f.column_index).matches_type
              (node_and_value_to_literal_type
                (auto_tree.get_node p.1).node_type p.2) = true)
          ∨ (∃ p ∈ user_pairs,
            (st.column_get f.column_index).matches_type
              (node_and_value_to_literal_type
                (user_tree.get_node p.1).node_type p.2) = true) then
        EvaluatedValue.False
      else EvaluatedValue.Prune))
    ∧ (∀ res2 : List (Nat × List Nat),
        Deserializer.evaluate_filter auto_tree user_tree
            { st with resolutions := res2 } f auto_pairs user_pairs
          = Deserializer.evaluate_filter auto_tree user_tree st f auto_pairs
            user_pairs)
    ∧ (∀ ns2 : String,
        Deserializer.evaluate_filter auto_tree user_tree
            (st.with_column_namespace f.column_index ns2) f auto_pairs
            user_pairs
          = Deserializer.evaluate_filter auto_tree user_tree st f auto_pairs
            user_pairs) := by
  have hcongr : ∀ (c1 c2 : ColumnDescriptor) (tree : SchemaTree)
      (pairs : NodeIdValuePairs) (b : Bool), c1.flags = c2.flags →
      pure_wildcard_scan c1 f tree pairs b
        = pure_wildcard_scan c2 f tree pairs b := by
    intro c1 c2 tree pairs b hflags
    induction pairs generalizing b with
    | nil => rfl
    | cons p rest ih =>
        obtain ⟨node_id, value⟩ := p
        rw [pure_wildcard_scan, pure_wildcard_scan]
        simp only [ColumnDescriptor.matches_type, hflags]
        split
        · split
          · rfl
          · exact ih true
        · exact ih b
  have hscan : ∀ (stx : SearchState),
      (stx.column_get f.column_index).flags
        = (st.column_get f.column_index).flags →
      (stx.column_get f.column_index).is_pure_wildcard = true →
      Deserializer.evaluate_filter auto_tree user_tree stx f auto_pairs
          user_pairs =
        (if (∃ p ∈ auto_pairs,
              (st.column_get f.column_index).matches_type
                (node_and_value_to_literal_type
                  (auto_tree.get_node p.1).node_type p.2) = true
              ∧ evaluate f (node_and_value_to_literal_type
                  (auto_tree.get_node p.1).node_type p.2) p.2
                = EvaluatedValue.True)
            ∨ (∃ p ∈ user_pairs,
              (st.column_get f.column_index).matches_type
                (node_and_value_to_literal_type
                  (user_tree.get_node p.1).node_type p.2) = true
              ∧ evaluate f (node_and_value_to_literal_type
                  (user_tree.get_node p.1).node_type p.2) p.2
                = EvaluatedValue.True) then
          EvaluatedValue.True
        else if (∃ p ∈ auto_pairs,
              (st.column_get f.column_index).matches_type
                (node_and_value_to_literal_type
                  (auto_tree.get_node p.1).node_type p.2) = true)
            ∨ (∃ p ∈ user_pairs,
              (st.column_get f.column_index).matches_type
                (node_and_value_to_literal_type
                  (user_tree.get_node p.1).node_type p.2) = true) then
          EvaluatedValue.False
        else EvaluatedValue.Prune) := by
    intro stx hflags hpx
    rw [Deserializer.evaluate_filter]
    simp only [hpx, if_true]
    rw [hcongr _ (st.column_get f.column_index) auto_tree auto_pairs false
        hflags,
      pure_wildcard_scan_eq]
    by_cases hA : ∃ p ∈ auto_pairs,
        (st.column_get f.column_index).matches_type
          (node_and_value_to_literal_type
            (auto_tree.get_node p.1).node_type p.2) = true
        ∧ evaluate f (node_and_value_to_literal_type
          (auto_tree.get_node p.1).node_type p.2) p.2 = EvaluatedValue.True
    · simp [hA]
    · simp only [hA, if_false]
      rw [hcongr _ (st.column_get f.column_index) user_tree user_pairs _
          hflags,
        pure_wildcard_scan_eq]
      by_cases hU : ∃ p ∈ user_pairs,
          (st.column_get f.column_index).matches_type
            (node_and_value_to_literal_type
              (user_tree.get_node p.1).node_type p.2) = true
          ∧ evaluate f (node_and_value_to_literal_type
            (user_tree.get_node p.1).node_type p.2) p.2 = EvaluatedValue.True
      · simp [hA, hU]
      · by_cases hMA : ∃ p ∈ auto_pairs,
            (st.column_get f.column_index).matches_type
              (node_and_value_to_literal_type
                (auto_tree.get_node p.1).node_type p.2) = true
        · simp [hA, hU, hMA, List.any_eq_true]
        · by_cases hMU : ∃ p ∈ user_pairs,
              (st.column_get f.column_index).matches_type
                (node_and_value_to_literal_type
                  (user_tree.get_node p.1).node_type p.2) = true
          · simp [hA, hU, hMA, hMU, List.any_eq_true]
          · simp [hA, hU, hMA, hMU, List.any_eq_true]
  have hidx : f.column_index < st.columns.length := by
    by_contra hge
    have hdef : st.column_get f.column_index = default := by
      unfold SearchState.column_get
      exact List.getD_eq_default _ _ (Nat.le_of_not_lt hge)
    rw [hdef] at hpure
    simp [ColumnDescriptor.is_pure_wildcard, default] at hpure
  refine ⟨hscan st rfl hpure, ?_, ?_⟩
  · intro res2
    rw [hscan { st with resolutions := res2 } rfl hpure, hscan st rfl hpure]
  · intro ns2
    have hcol : (st.with_column_namespace f.column_index ns2).column_get
        f.column_index
        = ({ st.column_get f.column_index with
          descriptor_namespace := ns2 }) := by
      unfold SearchState.with_column_namespace SearchState.column_get
      simp [List.getD_eq_getElem?_getD, List.getElem?_set_self, hidx]
    rw [hscan (st.with_column_namespace f.column_index ns2)
        (by rw [hcol]) (by rw [hcol]; exact hpure),
      hscan st rfl hpure]

/-- Witness for claim C5 at a concrete input: the pure-wildcard equality
filter on the fixture event evaluates `True` via the user-namespace pair,
with empty resolutions and regardless of namespace. -/
theorem claim_C5_pure_wildcard_witness :
    Deserializer.evaluate_filter SchemaTree.initial fx_user_tree fx_st
        ⟨0, FilterOperation.EQ, some (SearchLiteral.IntLit 5), false⟩ []
        fx_user_pairs
      = (if (∃ p ∈ ([] : NodeIdValuePairs),
            (fx_st.column_get 0).matches_type
              (node_and_value_to_literal_type
                (SchemaTree.initial.get_node p.1).node_type p.2) = true
            ∧ evaluate ⟨0, FilterOperation.EQ, some (SearchLiteral.IntLit 5),
                false⟩ (node_and_value_to_literal_type
                (SchemaTree.initial.get_node p.1).node_type p.2) p.2
              = EvaluatedValue.True)
          ∨ (∃ p ∈ fx_user_pairs,
            (fx_st.column_get 0).matches_type
              (node_and_value_to_literal_type
                (fx_user_tree.get_node p.1).node_type p.2) = true
            ∧ evaluate ⟨0, FilterOperation.EQ, some (SearchLiteral.IntLit 5),
                false⟩ (node_and_value_to_literal_type
                (fx_user_tree.get_node p.1).node_type p.2) p.2
              = EvaluatedValue.True) then
        EvaluatedValue.True
      else if (∃ p ∈ ([] : NodeIdValuePairs),
            (fx_st.column_get 0).matches_type
              (node_and_value_to_literal_type
                (SchemaTree.initial.get_node p.1).node_type p.2) = true)
          ∨ (∃ p ∈ fx_user_pairs,
            (fx_st.column_get 0).matches_type
              (node_and_value_to_literal_type
                (fx_user_tree.get_node p.1).node_type p.2) = true) then
        EvaluatedValue.False
      else EvaluatedValue.Prune) :=
  (claim_C5_pure_wildcard SchemaTree.initial fx_user_tree fx_st
    ⟨0, FilterOperation.EQ, some (SearchLiteral.IntLit 5), false⟩ []
    fx_user_pairs (by decide)).1

/-!
Query preprocessing (claim C7) and the deserializer loop statuses (claims C6
and C8).
-/

/-- Claim C7: `preprocess_query` runs the three rewrite passes in order and
short-circuits — a null query passes through; if the first pass yields the
empty expression it is returned with the later passes never run (the result
does not depend on them); likewise after the second pass; otherwise the
result is the third pass applied to the second applied to the first. -/
theorem claim_C7_preprocess_shortcircuit (p1 p2 p3 : Expr → Expr) (q : Expr) :
    preprocess_query p1 p2 p3 none = none
    ∧ ((p1 q).is_empty = true → ∀ p2x p3x : Expr → Expr,
        preprocess_query p1 p2x p3x (some q) = some (p1 q))
    ∧ ((p1 q).is_empty = false → (p2 (p1 q)).is_empty = true →
        ∀ p3x : Expr → Expr,
        preprocess_query p1 p2 p3x (some q) = some (p2 (p1 q)))
    ∧ ((p1 q).is_empty = false → (p2 (p1 q)).is_empty = false →
        preprocess_query p1 p2 p3 (some q) = some (p3 (p2 (p1 q)))) := by
  refine ⟨rfl, ?_, ?_, ?_⟩
  · intro h p2x p3x
    simp [preprocess_query, h]
  · intro h1 h2 p3x
    simp [preprocess_query, h1, h2]
  · intro h1 h2
    simp [preprocess_query, h1, h2]

/-- Witness for claim C7 at concrete inputs: a first pass producing the
empty expression short-circuits, and identity passes compose in order. -/
theorem claim_C7_preprocess_shortcircuit_witness :
    preprocess_query (fun _ => Expr.EmptyExpr) (fun e => e) (fun e => e)
        (some (Expr.Filter ⟨0, FilterOperation.EQ, none, false⟩))
      = some Expr.EmptyExpr
    ∧ preprocess_query (fun e => e) (fun e => e) (fun e => e)
        (some (Expr.Filter ⟨0, FilterOperation.EQ, none, false⟩))
      = some (Expr.Filter ⟨0, FilterOperation.EQ, none, false⟩) :=
  ⟨(claim_C7_preprocess_shortcircuit (fun _ => Expr.EmptyExpr) (fun e => e)
      (fun e => e) (Expr.Filter ⟨0, FilterOperation.EQ, none, false⟩)).2.1 rfl
      (fun e => e) (fun e => e),
    (claim_C7_preprocess_shortcircuit (fun e => e) (fun e => e) (fun e => e)
      (Expr.Filter ⟨0, FilterOperation.EQ, none, false⟩)).2.2.2 rfl rfl⟩

/-- Documentation of the stale prototype under `components/`: whenever the
first pass yields a non-empty expression, the prototype returns it at once,
never running the later passes — the inverted check that the production
`preprocess_query` fixes. -/
theorem preprocess_query_prototype_stops_after_first_pass
    (p1 p2 p3 : Expr → Expr) (q : Expr) (h : (p1 q).is_empty = false) :
    preprocess_query_prototype p1 p2 p3 (some q) = some (p1 q) := by
  simp [preprocess_query_prototype, h]

/-- Concrete run of the prototype documentation lemma. -/
theorem preprocess_query_prototype_stops_after_first_pass_example :
    preprocess_query_prototype (fun e => e) (fun _ => Expr.EmptyExpr)
        (fun e => e)
        (some (Expr.Filter ⟨0, FilterOperation.EQ, none, false⟩))
      = some (Expr.Filter ⟨0, FilterOperation.EQ, none, false⟩) :=
  preprocess_query_prototype_stops_after_first_pass (fun e => e)
    (fun _ => Expr.EmptyExpr) (fun e => e)
    (Expr.Filter ⟨0, FilterOperation.EQ, none, false⟩) rfl

/-- Claim C8: once the deserializer is complete (an end-of-stream unit was
accepted), every call to `deserialize_next_ir_unit` returns
`operation_not_permitted`, leaves the state untouched, consumes nothing from
the stream, and invokes no handler callback — for every handler and every
stream. -/
theorem claim_C8_after_end_of_stream (handler : Handler) (d : Deserializer)
    (stream : List IrUnit) (h : d.is_complete = true) :
    deserialize_next_ir_unit handler d stream
      = ⟨Except.error Errc.operation_not_permitted, d, stream, []⟩ := by
  simp [deserialize_next_ir_unit, h]

/-- A deserializer that has already accepted an end-of-stream unit. -/
def fx_completed : Deserializer :=
  { mk_deserializer [] [] none with is_complete := true }

/-- Witness for claim C8 at a concrete input: the completed deserializer
refuses a further end-of-stream unit without consuming it. -/
theorem claim_C8_after_end_of_stream_witness :
    deserialize_next_ir_unit trivial_handler fx_completed [IrUnit.EndOfStream]
      = ⟨Except.error Errc.operation_not_permitted, fx_completed,
        [IrUnit.EndOfStream], []⟩ :=
  claim_C8_after_end_of_stream trivial_handler fx_completed
    [IrUnit.EndOfStream] rfl

/-- Claim C6: on a log-event unit, a query evaluation other than `True`
drops the event — no handler callback, the distinguishable `no_message`
error status (not a unit type), unchanged state, stream advanced past the
unit; an evaluation of `True` materializes the event and invokes
`handle_log_event` (succeeding when the handler does). -/
theorem claim_C6_log_event_filtering (handler : Handler) (d : Deserializer)
    (auto_pairs user_pairs : NodeIdValuePairs) (rest : List IrUnit)
    (hnc : d.is_complete = false) :
    (Deserializer.evaluate d.auto_gen_keys_schema_tree
        d.user_gen_keys_schema_tree d.search d.query auto_pairs user_pairs
        ≠ EvaluatedValue.True →
      deserialize_next_ir_unit handler d
          (IrUnit.LogEvent auto_pairs user_pairs :: rest)
        = ⟨Except.error Errc.no_message, d, rest, []⟩)
    ∧ (Deserializer.evaluate d.auto_gen_keys_schema_tree
        d.user_gen_keys_schema_tree d.search d.query auto_pairs user_pairs
        = EvaluatedValue.True →
      (deserialize_next_ir_unit handler d
          (IrUnit.LogEvent auto_pairs user_pairs :: rest)).handler_calls
        = [HandlerCall.HandleLogEvent auto_pairs user_pairs d.utc_offset]
      ∧ (handler (HandlerCall.HandleLogEvent auto_pairs user_pairs
          d.utc_offset) = none →
        (deserialize_next_ir_unit handler d
            (IrUnit.LogEvent auto_pairs user_pairs :: rest)).outcome
          = Except.ok IrUnitType.LogEvent)) := by
  constructor
  · intro hev
    simp [deserialize_next_ir_unit, hnc, hev]
  · intro hev
    constructor
    · simp only [deserialize_next_ir_unit, hnc, Bool.false_eq_true, if_false,
        hev, ne_eq, not_true_eq_false]
      cases handler (HandlerCall.HandleLogEvent auto_pairs user_pairs
          d.utc_offset) <;> simp
    · intro hh
      simp only [deserialize_next_ir_unit, hnc, Bool.false_eq_true, if_false,
        hev, ne_eq, not_true_eq_false]
      simp [hh]

/-- A deserializer whose query is the never-resolving `zz` filter. -/
def fx_filtering_deserializer : Deserializer :=
  mk_deserializer fx_cols []
    (some (Expr.Filter ⟨1, FilterOperation.EQ,
      some (SearchLiteral.IntLit 5), false⟩))

/-- Witness for claim C6 at concrete inputs: the `zz`-filter deserializer
drops a log event (its evaluation is `Prune`), and a query-free deserializer
delivers it to the handler. -/
theorem claim_C6_log_event_filtering_witness :
    deserialize_next_ir_unit trivial_handler fx_filtering_deserializer
        [IrUnit.LogEvent [] fx_user_pairs]
      = ⟨Except.error Errc.no_message, fx_filtering_deserializer, [], []⟩
    ∧ (deserialize_next_ir_unit trivial_handler (mk_deserializer [] [] none)
        [IrUnit.LogEvent [] fx_user_pairs]).handler_calls
      = [HandlerCall.HandleLogEvent [] fx_user_pairs 0]
    ∧ (deserialize_next_ir_unit trivial_handler (mk_deserializer [] [] none)
        [IrUnit.LogEvent [] fx_user_pairs]).outcome
      = Except.ok IrUnitType.LogEvent :=
  ⟨(claim_C6_log_event_filtering trivial_handler fx_filtering_deserializer
      [] fx_user_pairs [] rfl).1 (by decide),
    ((claim_C6_log_event_filtering trivial_handler (mk_deserializer [] [] none)
      [] fx_user_pairs [] rfl).2 (by decide)).1,
    ((claim_C6_log_event_filtering trivial_handler (mk_deserializer [] [] none)
      [] fx_user_pairs [] rfl).2 (by decide)).2 rfl⟩

/-!
Var-string filters (claim C9) and the type-mask `Prune` path of the filter
evaluator (claim C10).
-/

/-- Claim C9 counterexample: the var-string equality filter accepts the
pattern `HELLO` against the value `hello` although the case-sensitive
wildcard match of the two fails — the evaluator hard-codes case-insensitive
matching and consults no query flag. -/
theorem claim_C9_counterexample :
    evaluate_var_string_filter FilterOperation.EQ
        (some (SearchLiteral.VarStringLit "HELLO"))
        (some (Value.StringVal "hello")) = true
    ∧ wildcard_match_unsafe "hello" "HELLO" true = false := by
  exact ⟨rfl, rfl⟩

/-- Claim C9 (amended): for a `VarString` operand and a plain-string value,
`EQ` wildcard-matches the value (subject) against the operand (pattern) with
case sensitivity hard-coded to insensitive, and `NEQ` is exactly the
negation of that match; when the operand has no var-string form both return
false. -/
theorem claim_C9_amended (pattern subject : String) :
    (evaluate_var_string_filter FilterOperation.EQ
        (some (SearchLiteral.VarStringLit pattern))
        (some (Value.StringVal subject))
      = wildcard_match_unsafe subject pattern false)
    ∧ (evaluate_var_string_filter FilterOperation.NEQ
        (some (SearchLiteral.VarStringLit pattern))
        (some (Value.StringVal subject))
      = !( wildcard_match_unsafe subject pattern false))
    ∧ (∀ (l : SearchLiteral) (op : FilterOperation),
        l.as_var_string op = none →
        evaluate_var_string_filter op (some l)
          (some (Value.StringVal subject)) = false) := by
  refine ⟨rfl, rfl, ?_⟩
  intro l op h
  simp [evaluate_var_string_filter, h]

/-- Witness for the amended claim C9 at concrete inputs, including a
non-string operand on which both comparisons return false. -/
theorem claim_C9_amended_witness :
    evaluate_var_string_filter FilterOperation.EQ
        (some (SearchLiteral.VarStringLit "he*o"))
        (some (Value.StringVal "hello"))
      = wildcard_match_unsafe "hello" "he*o" false
    ∧ evaluate_var_string_filter FilterOperation.NEQ
        (some SearchLiteral.NullLit) (some (Value.StringVal "hello")) = false :=
  ⟨(claim_C9_amended "he*o" "hello").1,
    (claim_C9_amended "he*o" "hello").2.2 SearchLiteral.NullLit
      FilterOperation.NEQ rfl⟩

/-- The namespace dispatch of the non-pure-wildcard filter path: whether the
filter's column targets the auto-generated namespace. -/
def filter_is_autogen (st : SearchState) (f : FilterExpr) : Bool :=
  cAutogenNamespace == (st.column_get f.column_index).descriptor_namespace

/-- Claim C10 (amended): for a non-pure-wildcard filter, when the first node
id of the column's final-resolution list that occurs in the pair map of the
column's namespace carries a literal type outside the column's type mask,
the filter evaluates to `Prune`, not `False`.  (As stated over an arbitrary
resolved id the claim fails: evaluation uses only the first resolved id
present in the pair map — see the counterexample.) -/
theorem claim_C10_amended (auto_tree user_tree : SchemaTree)
    (st : SearchState) (f : FilterExpr)
    (auto_pairs user_pairs : NodeIdValuePairs) (ids : List Nat)
    (matched_node_id : Nat)
    (hnp : (st.column_get f.column_index).is_pure_wildcard = false)
    (hres : alist_find st.resolutions f.column_index = some ids)
    (hfirst : ids.find? (fun id => (alist_find
        (if filter_is_autogen st f then auto_pairs else user_pairs)
        id).isSome) = some matched_node_id)
    (hmis : (st.column_get f.column_index).matches_type
        (node_and_value_to_literal_type
          ((if filter_is_autogen st f then auto_tree
            else user_tree).get_node matched_node_id).node_type
          ((alist_find (if filter_is_autogen st f then auto_pairs
            else user_pairs) matched_node_id).getD none)) = false) :
    Deserializer.evaluate_filter auto_tree user_tree st f auto_pairs
        user_pairs = EvaluatedValue.Prune := by
  rw [Deserializer.evaluate_filter]
  simp only [hnp, Bool.false_eq_true, if_false, hres]
  rw [show (cAutogenNamespace
      == (st.column_get f.column_index).descriptor_namespace)
    = filter_is_autogen st f from rfl]
  rw [hfirst]
  simp [hmis]

/-- Arena, trees and reachable state of the C10 counterexample: column
`a.*` narrowed to `VarStringT` resolves the two `Str` children `a.x` and
`a.y` (ids 2 and 3). -/
def c10_col : ColumnDescriptor :=
  ⟨"", [DescriptorToken.lit "a", DescriptorToken.wildcard], VarStringT⟩

def c10_filter : FilterExpr :=
  ⟨0, FilterOperation.EQ, some (SearchLiteral.VarStringLit "hello"), false⟩

def c10_d0 : Deserializer :=
  mk_deserializer [c10_col] [] (some (Expr.Filter c10_filter))

def c10_ops : List (Bool × NodeLocator) :=
  [(false, ⟨0, "a", NodeType.Obj⟩), (false, ⟨1, "x", NodeType.Str⟩),
   (false, ⟨1, "y", NodeType.Str⟩)]

def c10_pairs : NodeIdValuePairs :=
  [(2, some (Value.StringVal "hello")), (3, some (Value.EncodedTextAst8 "x"))]

/-- Claim C10 counterexample: after the run, both ids 2 and 3 are final
resolutions of the column; the event carries both, id 3's literal type
(`ClpStringT`, from its encoded-text value) lies outside the column's mask
(`VarStringT`), yet the filter evaluates `True` — not `Prune` — because the
evaluator uses the first resolved id present (id 2), which matches and
satisfies the filter. -/
theorem claim_C10_counterexample :
    (run_insertions c10_d0 c10_ops).map
        (fun d => alist_find d.search.resolutions 0) = some (some [2, 3])
    ∧ (run_insertions c10_d0 c10_ops).map
        (fun d => Deserializer.evaluate_filter d.auto_gen_keys_schema_tree
          d.user_gen_keys_schema_tree d.search c10_filter [] c10_pairs)
      = some EvaluatedValue.True
    ∧ (alist_find c10_pairs 3).isSome = true
    ∧ (run_insertions c10_d0 c10_ops).map
        (fun d => c10_col.matches_type (node_and_value_to_literal_type
          (d.user_gen_keys_schema_tree.get_node 3).node_type
          ((alist_find c10_pairs 3).getD none)))
      = some false := by
  exact ⟨rfl, rfl, rfl, rfl⟩

/-- The reachable state of the C10 witness, written out (it is the search
state `run_insertions c10_d0 c10_ops` produces). -/
def c10_user_tree : SchemaTree :=
  ⟨[⟨0, "", NodeType.Obj⟩, ⟨0, "a", NodeType.Obj⟩, ⟨1, "x", NodeType.Str⟩,
    ⟨1, "y", NodeType.Str⟩]⟩

def c10_state : SearchState :=
  ⟨[c10_col],
    [((0, false), [(0, 0)]), ((1, false), [(0, 1)])],
    [(0, [2, 3])], []⟩

/-- Witness for the amended claim C10 at a concrete input: an event carrying
only id 3 (whose encoded-text value has literal type `ClpStringT`, outside
the `VarStringT` mask) makes the filter evaluate `Prune`. -/
theorem claim_C10_amended_witness :
    Deserializer.evaluate_filter SchemaTree.initial c10_user_tree c10_state
        c10_filter [] [(3, some (Value.EncodedTextAst8 "x"))]
      = EvaluatedValue.Prune :=
  claim_C10_amended SchemaTree.initial c10_user_tree c10_state c10_filter []
    [(3, some (Value.EncodedTextAst8 "x"))] [2, 3] 3 rfl rfl rfl rfl

/-!
Association-list membership machinery for claim C2.
-/

/-- Membership of `x` in the value list stored at key `k`. -/
def entry_mem {α β : Type} [BEq α] (l : List (α × List β)) (k : α) (x : β) :
    Prop :=
  ∃ vs, alist_find l k = some vs ∧ x ∈ vs

theorem alist_find_append_entry_same {α β : Type} [BEq α] [LawfulBEq α]
    (l : List (α × List β)) (k : α) (v : β) :
    alist_find (alist_append_entry l k v) k
      = some ((alist_find l k).getD [] ++ [v]) := by
  induction l with
  | nil => simp [alist_append_entry, alist_find]
  | cons p rest ih =>
      obtain ⟨k', vs⟩ := p
      by_cases hk : k' = k
      · subst hk
        simp [alist_append_entry, alist_find]
      · have hbeq : (k' == k) = false := beq_eq_false_iff_ne.mpr hk
        simp only [alist_append_entry, hbeq, if_false]
        simpa [alist_find, List.find?_cons, hbeq] using ih

theorem alist_find_append_entry_other {α β : Type} [BEq α] [LawfulBEq α]
    (l : List (α × List β)) (k k2 : α) (v : β) (h : k2 ≠ k) :
    alist_find (alist_append_entry l k v) k2 = alist_find l k2 := by
  induction l with
  | nil =>
      have hbeq : (k == k2) = false :=
        beq_eq_false_iff_ne.mpr (fun he => h he.symm)
      simp [alist_append_entry, alist_find, hbeq]
  | cons p rest ih =>
      obtain ⟨k', vs⟩ := p
      by_cases hk : k' = k
      · subst hk
        have hbeq : (k' == k2) = false :=
          beq_eq_false_iff_ne.mpr (fun he => h he.symm)
        simp [alist_append_entry, alist_find, hbeq]
      · have hbeq : (k' == k) = false := beq_eq_false_iff_ne.mpr hk
        simp only [alist_append_entry, hbeq, if_false]
        by_cases hk2 : k' = k2
        · subst hk2
          simp [alist_find]
        · have hbeq2 : (k' == k2) = false := beq_eq_false_iff_ne.mpr hk2
          simpa [alist_find, List.find?_cons, hbeq2] using ih

/-- Appending an entry preserves every existing membership. -/
theorem entry_mem_append_entry_of {α β : Type} [BEq α] [LawfulBEq α]
    (l : List (α × List β)) (k k2 : α) (x : β) (v : β)
    (h : entry_mem l k x) : entry_mem (alist_append_entry l k2 v) k x := by
  obtain ⟨vs, hfind, hmem⟩ := h
  by_cases hk : k = k2
  · subst hk
    refine ⟨(alist_find l k).getD [] ++ [v], alist_find_append_entry_same l k v,
      ?_⟩
    rw [hfind]
    exact List.mem_append_left _ hmem
  · exact ⟨vs, by
      rw [alist_find_append_entry_other l k2 k v hk]; exact hfind, hmem⟩

/-- The appended value is a member at its key. -/
theorem entry_mem_append_entry_self {α β : Type} [BEq α] [LawfulBEq α]
    (l : List (α × List β)) (k : α) (v : β) :
    entry_mem (alist_append_entry l k v) k v :=
  ⟨(alist_find l k).getD [] ++ [v], alist_find_append_entry_same l k v,
    List.mem_append_right _ (List.mem_singleton.mpr rfl)⟩

/-- Memberships survive a left fold of entry appends. -/
theorem entry_mem_foldl_append {α β : Type} [BEq α] [LawfulBEq α]
    (pushes : List β) (k k2 : α) (x : β) :
    ∀ l : List (α × List β), entry_mem l k x →
    entry_mem (pushes.foldl (fun pr p => alist_append_entry pr k2 p) l) k x := by
  induction pushes with
  | nil => exact fun l h => h
  | cons p rest ih =>
      exact fun l h => ih _ (entry_mem_append_entry_of l k k2 x p h)

/-- Every pushed value is a member at the push key after the fold. -/
theorem entry_mem_foldl_append_self {α β : Type} [BEq α] [LawfulBEq α]
    (pushes : List β) (k2 : α) (x : β) (h : x ∈ pushes) :
    ∀ l : List (α × List β),
    entry_mem (pushes.foldl (fun pr p => alist_append_entry pr k2 p) l) k2
      x := by
  induction pushes with
  | nil => exact absurd h (List.not_mem_nil x)
  | cons p rest ih =>
      intro l
      rcases List.mem_cons.mp h with h1 | h2
      · subst h1
        exact entry_mem_foldl_append rest k2 k2 x _
          (entry_mem_append_entry_self l k2 x)
      · exact ih h2 _

/-!
Declarative-matching lemmas for claim C2.
-/

/-- The Bool matcher and the inductive derivation agree. -/
theorem tokens_match_path_iff (ts : List DescriptorToken) (ps : List String) :
    tokens_match_path ts ps = true ↔ TokMatch ts ps := by
  induction ts generalizing ps with
  | nil =>
      cases ps with
      | nil =>
          constructor
          · intro _; exact TokMatch.nil
          · intro _; rfl
      | cons p ps2 =>
          constructor
          · intro hc; simp [tokens_match_path] at hc
          · intro hc; cases hc
  | cons t ts2 ih =>
      cases t with
      | lit s =>
          cases ps with
          | nil =>
              constructor
              · intro hc; simp [tokens_match_path] at hc
              · intro hc; cases hc
          | cons p ps2 =>
              constructor
              · intro hm
                simp only [tokens_match_path, Bool.and_eq_true,
                  beq_iff_eq] at hm
                obtain ⟨hs, hrest⟩ := hm
                subst hs
                exact TokMatch.lit s ((ih ps2).mp hrest)
              · intro hm
                cases hm
                case lit hrest =>
                  simp [tokens_match_path, (ih ps2).mpr hrest]
      | wildcard =>
          constructor
          · intro hm
            simp only [tokens_match_path, Bool.or_eq_true] at hm
            rcases hm with h0 | h1
            · exact TokMatch.wild_zero ((ih ps).mp h0)
            · cases ps with
              | nil => simp at h1
              | cons p ps2 => exact TokMatch.wild_one p ((ih ps2).mp h1)
          · intro hm
            cases hm with
            | wild_zero hrest =>
                simp only [tokens_match_path, Bool.or_eq_true]
                exact Or.inl ((ih ps).mpr hrest)
            | wild_one p hrest =>
                simp only [tokens_match_path, Bool.or_eq_true]
                exact Or.inr ((ih _).mpr hrest)

/-- Tokens matching the empty path are all wildcards (matched zero-width). -/
theorem tok_match_nil_all_wild (ts : List DescriptorToken)
    (h : TokMatch ts []) : ∀ t ∈ ts, t = DescriptorToken.wildcard := by
  induction ts with
  | nil => simp
  | cons t ts' ih =>
      cases h with
      | wild_zero h' =>
          intro x hx
          rcases List.mem_cons.mp hx with h1 | h2
          · rw [h1]
          · exact ih h' x h2

/-- Adjacency-freedom passes to the tail. -/
theorem no_adjacent_wildcards_tail (t : DescriptorToken)
    (ts : List DescriptorToken) (h : no_adjacent_wildcards (t :: ts) = true) :
    no_adjacent_wildcards ts = true := by
  cases ts with
  | nil => rfl
  | cons t2 ts2 =>
      cases t with
      | lit s => exact h
      | wildcard =>
          cases t2 with
          | lit s2 => exact h
          | wildcard => exact absurd h (by simp [no_adjacent_wildcards])

/-- Adjacency-freedom forbids a wildcard head followed by a wildcard. -/
theorem no_adjacent_wildcards_head (ts : List DescriptorToken)
    (h : no_adjacent_wildcards (DescriptorToken.wildcard
      :: DescriptorToken.wildcard :: ts) = true) : False := by
  simp [no_adjacent_wildcards] at h

/-- Adjacency-freedom restricts tokens matching the empty path to at most a
single wildcard. -/
theorem tok_match_nil_short (ts : List DescriptorToken) (h : TokMatch ts [])
    (hadj : no_adjacent_wildcards ts = true) :
    ts = [] ∨ ts = [DescriptorToken.wildcard] := by
  cases ts with
  | nil => exact Or.inl rfl
  | cons t ts' =>
      have hw := tok_match_nil_all_wild _ h
      have ht : t = DescriptorToken.wildcard := hw t (List.mem_cons_self t ts')
      subst ht
      cases ts' with
      | nil => exact Or.inr rfl
      | cons t2 ts2 =>
          have ht2 : t2 = DescriptorToken.wildcard :=
            hw t2 (List.mem_cons_of_mem _ (List.mem_cons_self t2 ts2))
          subst ht2
          exact absurd hadj (by simp [no_adjacent_wildcards])

/-- Decomposition of a derivation over a path extended by one segment `m`:
with no adjacent wildcards, either the final token consumes `m` (with the
earlier tokens matching the path), or the token before a trailing wildcard is
the literal `m` (the trailing wildcard matched zero-width). -/
theorem tok_match_snoc (ts : List DescriptorToken) (ps : List String)
    (m : String) (h : TokMatch ts (ps ++ [m]))
    (hadj : no_adjacent_wildcards ts = true) :
    (∃ ts0 t, ts = ts0 ++ [t] ∧ TokMatch ts0 ps
      ∧ (t = DescriptorToken.wildcard ∨ t = DescriptorToken.lit m))
    ∨ (∃ ts0, ts = ts0 ++ [DescriptorToken.lit m, DescriptorToken.wildcard]
      ∧ TokMatch ts0 ps) := by
  induction ts generalizing ps with
  | nil =>
      exfalso
      cases ps with
      | nil => cases h
      | cons p ps2 => cases h
  | cons t ts2 ih =>
      have hadj2 : no_adjacent_wildcards ts2 = true :=
        no_adjacent_wildcards_tail t ts2 hadj
      cases t with
      | lit s =>
          cases ps with
          | nil =>
              cases h
              case lit hrest =>
                rcases tok_match_nil_short ts2 hrest hadj2 with h0 | h1
                · subst h0
                  exact Or.inl ⟨[], DescriptorToken.lit m, rfl, TokMatch.nil,
                    Or.inr rfl⟩
                · subst h1
                  exact Or.inr ⟨[], rfl, TokMatch.nil⟩
          | cons p ps2 =>
              cases h
              case lit hrest =>
                rcases ih ps2 hrest hadj2 with ⟨ts0, t2, heq, hm0, hc⟩
                  | ⟨ts0, heq, hm0⟩
                · exact Or.inl ⟨DescriptorToken.lit s :: ts0, t2,
                    by rw [heq, List.cons_append], TokMatch.lit s hm0, hc⟩
                · exact Or.inr ⟨DescriptorToken.lit s :: ts0,
                    by rw [heq, List.cons_append], TokMatch.lit s hm0⟩
      | wildcard =>
          cases ps with
          | nil =>
              cases h
              case wild_zero hrest =>
                rcases ih [] hrest hadj2 with ⟨ts0, t2, heq, hm0, hc⟩
                  | ⟨ts0, heq, hm0⟩
                · exact Or.inl ⟨DescriptorToken.wildcard :: ts0, t2,
                    by rw [heq, List.cons_append],
                    TokMatch.wild_zero hm0, hc⟩
                · exact Or.inr ⟨DescriptorToken.wildcard :: ts0,
                    by rw [heq, List.cons_append], TokMatch.wild_zero hm0⟩
              case wild_one hrest =>
                rcases tok_match_nil_short ts2 hrest hadj2 with h0 | h1
                · subst h0
                  exact Or.inl ⟨[], DescriptorToken.wildcard, rfl,
                    TokMatch.nil, Or.inl rfl⟩
                · subst h1
                  exact absurd hadj (by simp [no_adjacent_wildcards])
          | cons p2 ps2 =>
              cases h
              case wild_zero hrest =>
                rcases ih (p2 :: ps2) hrest hadj2
                  with ⟨ts0, t2, heq, hm0, hc⟩ | ⟨ts0, heq, hm0⟩
                · exact Or.inl ⟨DescriptorToken.wildcard :: ts0, t2,
                    by rw [heq, List.cons_append],
                    TokMatch.wild_zero hm0, hc⟩
                · exact Or.inr ⟨DescriptorToken.wildcard :: ts0,
                    by rw [heq, List.cons_append], TokMatch.wild_zero hm0⟩
              case wild_one hrest =>
                rcases ih ps2 hrest hadj2 with ⟨ts0, t2, heq, hm0, hc⟩
                  | ⟨ts0, heq, hm0⟩
                · exact Or.inl ⟨DescriptorToken.wildcard :: ts0, t2,
                    by rw [heq, List.cons_append],
                    TokMatch.wild_one p2 hm0, hc⟩
                · exact Or.inr ⟨DescriptorToken.wildcard :: ts0,
                    by rw [heq, List.cons_append], TokMatch.wild_one p2 hm0⟩

/-!
Schema-tree well-formedness under valid insertions.
-/

/-- Well-formedness as valid streams build trees: nodes exist (the root) and
every non-root node's parent precedes it. -/
def SchemaTree.wf (t : SchemaTree) : Prop :=
  t.nodes ≠ [] ∧ ∀ i, 0 < i → i < t.size → (t.get_node i).parent_id < i

theorem schema_tree_initial_wf : SchemaTree.initial.wf := by
  constructor
  · simp [SchemaTree.initial]
  · intro i h0 hi
    simp [SchemaTree.initial, SchemaTree.size] at hi
    omega

theorem schema_tree_size_insert (t : SchemaTree) (loc : NodeLocator) :
    (t.insert_node loc).1.size = t.size + 1 := by
  simp [SchemaTree.insert_node, SchemaTree.size]

theorem schema_tree_get_node_insert_old (t : SchemaTree) (loc : NodeLocator)
    (id : Nat) (h : id < t.size) :
    (t.insert_node loc).1.get_node id = t.get_node id := by
  simp only [SchemaTree.insert_node, SchemaTree.get_node]
  rw [List.getD_append _ _ _ _ h]

theorem schema_tree_get_node_insert_new (t : SchemaTree) (loc : NodeLocator) :
    (t.insert_node loc).1.get_node t.size
      = ⟨loc.parent_id, loc.key_name, loc.node_type⟩ := by
  simp only [SchemaTree.insert_node, SchemaTree.get_node, SchemaTree.size]
  rw [List.getD_eq_getElem?_getD, List.getElem?_append_right (Nat.le_refl _)]
  simp

theorem schema_tree_insert_wf (t : SchemaTree) (loc : NodeLocator)
    (hw : t.wf) (hp : loc.parent_id < t.size) : (t.insert_node loc).1.wf := by
  constructor
  · simp [SchemaTree.insert_node]
  · intro i h0 hi
    rw [schema_tree_size_insert] at hi
    by_cases hlt : i < t.size
    · rw [schema_tree_get_node_insert_old t loc i hlt]
      exact hw.2 i h0 hlt
    · have : i = t.size := by omega
      subst this
      rw [schema_tree_get_node_insert_new]
      exact hp

theorem schema_tree_path_to_insert_old (t : SchemaTree) (loc : NodeLocator) :
    ∀ id, id < t.size →
    (t.insert_node loc).1.path_to id = t.path_to id := by
  intro id
  induction id using Nat.strong_induction_on with
  | _ id ih =>
      intro hid
      by_cases h0 : id = 0
      · subst h0
        rw [SchemaTree.path_to, SchemaTree.path_to]
        simp
      · rw [SchemaTree.path_to, SchemaTree.path_to]
        simp only [h0, if_false]
        rw [schema_tree_get_node_insert_old t loc id hid]
        by_cases hpar : (t.get_node id).parent_id < id
        · rw [dif_pos hpar, dif_pos hpar,
            ih (t.get_node id).parent_id hpar (Nat.lt_trans hpar hid)]
        · rw [dif_neg hpar, dif_neg hpar]

theorem schema_tree_path_to_insert_new (t : SchemaTree) (loc : NodeLocator)
    (hne : t.nodes ≠ []) (hp : loc.parent_id < t.size) :
    (t.insert_node loc).1.path_to t.size
      = t.path_to loc.parent_id ++ [loc.key_name] := by
  have hsz : t.size ≠ 0 := by
    simp only [SchemaTree.size]
    intro hc
    exact hne (List.eq_nil_of_length_eq_zero hc)
  rw [SchemaTree.path_to]
  simp only [hsz, if_false]
  rw [schema_tree_get_node_insert_new]
  simp only
  rw [dif_pos hp]
  rw [schema_tree_path_to_insert_old t loc loc.parent_id hp]

/-!
Behavior of the resolution-update loop under the always-succeeding handler.
-/

/-- The loop only appends: existing partial-resolution and final-resolution
memberships survive. -/
theorem resolution_update_loop_mono (st : SearchState)
    (is_auto_generated : Bool) (loc : NodeLocator) (node_id : Nat)
    (entries : List PartialResolutionEntry) :
    ∀ acc : ResolutionStepAcc,
    (∀ (k : PartialResolutionKey) (x : PartialResolutionEntry),
      entry_mem acc.partial_resolutions k x →
      entry_mem (resolution_update_loop trivial_handler st is_auto_generated
        loc node_id entries acc).1.partial_resolutions k x)
    ∧ (∀ (ci id : Nat), entry_mem acc.resolutions ci id →
      entry_mem (resolution_update_loop trivial_handler st is_auto_generated
        loc node_id entries acc).1.resolutions ci id) := by
  induction entries with
  | nil => exact fun acc => ⟨fun k x h => h, fun ci id h => h⟩
  | cons e rest ih =>
      intro acc
      rw [resolution_update_loop]
      cases hfin : (process_partial_entry (st.column_get e.1) e.1 e.2 loc).2
        with
      | false =>
          simp only [hfin, Bool.false_eq_true, if_false]
          constructor
          · intro k x h
            exact (ih _).1 k x (entry_mem_foldl_append _ _ _ _ _ h)
          · intro ci id h
            exact (ih _).2 ci id h
      | true =>
          simp only [hfin, if_true]
          cases hproj : alist_find st.projected_columns e.1 with
          | some original_key =>
              simp only [hproj, trivial_handler]
              constructor
              · intro k x h
                exact (ih _).1 k x (entry_mem_foldl_append _ _ _ _ _ h)
              · intro ci id h
                exact (ih _).2 ci id h
          | none =>
              simp only [hproj]
              constructor
              · intro k x h
                exact (ih _).1 k x (entry_mem_foldl_append _ _ _ _ _ h)
              · intro ci id h
                exact (ih _).2 ci id
                  (entry_mem_append_entry_of _ _ _ _ _ h)

/-- Every entry processed by the loop lands: the pushes it computes appear at
the inserted node's key, and a non-projected final match appends the node id
to the entry's column resolutions. -/
theorem resolution_update_loop_adds (st : SearchState)
    (is_auto_generated : Bool) (loc : NodeLocator) (node_id : Nat)
    (entries : List PartialResolutionEntry) :
    ∀ acc : ResolutionStepAcc, ∀ e ∈ entries,
    (∀ push ∈ (process_partial_entry (st.column_get e.1) e.1 e.2 loc).1,
      entry_mem (resolution_update_loop trivial_handler st is_auto_generated
        loc node_id entries acc).1.partial_resolutions
        (node_id, is_auto_generated) push)
    ∧ ((process_partial_entry (st.column_get e.1) e.1 e.2 loc).2 = true →
      alist_find st.projected_columns e.1 = none →
      entry_mem (resolution_update_loop trivial_handler st is_auto_generated
        loc node_id entries acc).1.resolutions e.1 node_id) := by
  induction entries with
  | nil => intro acc e he; exact absurd he (List.not_mem_nil e)
  | cons e0 rest ih =>
      intro acc e he
      rcases List.mem_cons.mp he with h1 | h2
      · subst h1
        rw [resolution_update_loop]
        cases hfin : (process_partial_entry (st.column_get e.1) e.1 e.2
            loc).2 with
        | false =>
            simp only [hfin, Bool.false_eq_true, if_false]
            constructor
            · intro push hpush
              exact (resolution_update_loop_mono st is_auto_generated loc
                node_id rest _).1 _ _
                (entry_mem_foldl_append_self _ _ _ hpush _)
            · intro hc _
              exact hc.elim
        | true =>
            simp only [hfin, if_true]
            cases hproj : alist_find st.projected_columns e.1 with
            | some original_key =>
                simp only [hproj, trivial_handler]
                constructor
                · intro push hpush
                  exact (resolution_update_loop_mono st is_auto_generated loc
                    node_id rest _).1 _ _
                    (entry_mem_foldl_append_self _ _ _ hpush _)
                · intro _ hnone
                  exact Option.noConfusion hnone
            | none =>
                simp only [hproj]
                constructor
                · intro push hpush
                  exact (resolution_update_loop_mono st is_auto_generated loc
                    node_id rest _).1 _ _
                    (entry_mem_foldl_append_self _ _ _ hpush _)
                · intro _ _
                  exact (resolution_update_loop_mono st is_auto_generated loc
                    node_id rest _).2 _ _
                    (entry_mem_append_entry_self _ _ _)
      · cases hfin : (process_partial_entry (st.column_get e0.1) e0.1 e0.2
            loc).2 with
        | false =>
            rw [resolution_update_loop]
            simp only [hfin, Bool.false_eq_true, if_false]
            exact ih _ e h2
        | true =>
            rw [resolution_update_loop]
            simp only [hfin, if_true]
            cases hproj : alist_find st.projected_columns e0.1 with
            | some original_key =>
                simp only [hproj, trivial_handler]
                exact ih _ e h2
            | none =>
                simp only [hproj]
                exact ih _ e h2

/-- The update step only appends (always-succeeding handler). -/
theorem handle_resolution_update_step_mono (st : SearchState)
    (is_auto_generated : Bool) (loc : NodeLocator) (node_id : Nat) :
    (∀ (k : PartialResolutionKey) (x : PartialResolutionEntry),
      entry_mem st.partial_resolutions k x →
      entry_mem (handle_resolution_update_step trivial_handler st
        is_auto_generated loc node_id).1.partial_resolutions k x)
    ∧ (∀ (ci id : Nat), entry_mem st.resolutions ci id →
      entry_mem (handle_resolution_update_step trivial_handler st
        is_auto_generated loc node_id).1.resolutions ci id) := by
  rw [handle_resolution_update_step]
  cases hfind : alist_find st.partial_resolutions
      (loc.parent_id, is_auto_generated) with
  | none => exact ⟨fun k x h => h, fun ci id h => h⟩
  | some entries =>
      simp only
      constructor
      · intro k x h
        exact (resolution_update_loop_mono st is_auto_generated loc node_id
          entries ⟨st.partial_resolutions, st.resolutions, []⟩).1 k x h
      · intro ci id h
        exact (resolution_update_loop_mono st is_auto_generated loc node_id
          entries ⟨st.partial_resolutions, st.resolutions, []⟩).2 ci id h

/-- Every partial-resolution entry at the inserted node's parent is
processed by the update step. -/
theorem handle_resolution_update_step_adds (st : SearchState)
    (is_auto_generated : Bool) (loc : NodeLocator) (node_id : Nat)
    (entries : List PartialResolutionEntry)
    (hfind : alist_find st.partial_resolutions
      (loc.parent_id, is_auto_generated) = some entries)
    (e : PartialResolutionEntry) (he : e ∈ entries) :
    (∀ push ∈ (process_partial_entry (st.column_get e.1) e.1 e.2 loc).1,
      entry_mem (handle_resolution_update_step trivial_handler st
        is_auto_generated loc node_id).1.partial_resolutions
        (node_id, is_auto_generated) push)
    ∧ ((process_partial_entry (st.column_get e.1) e.1 e.2 loc).2 = true →
      alist_find st.projected_columns e.1 = none →
      entry_mem (handle_resolution_update_step trivial_handler st
        is_auto_generated loc node_id).1.resolutions e.1 node_id) := by
  rw [handle_resolution_update_step, hfind]
  simp only
  exact resolution_update_loop_adds st is_auto_generated loc node_id entries
    ⟨st.partial_resolutions, st.resolutions, []⟩ e he

/-- The update step never touches the column arena or the projection map. -/
theorem handle_resolution_update_step_columns (handler : Handler)
    (st : SearchState) (is_auto_generated : Bool) (loc : NodeLocator)
    (node_id : Nat) :
    (handle_resolution_update_step handler st is_auto_generated loc
        node_id).1.columns = st.columns
    ∧ (handle_resolution_update_step handler st is_auto_generated loc
        node_id).1.projected_columns = st.projected_columns := by
  rw [handle_resolution_update_step]
  cases alist_find st.partial_resolutions (loc.parent_id, is_auto_generated)
    with
  | none => exact ⟨rfl, rfl⟩
  | some entries => exact ⟨rfl, rfl⟩

/-!
What one loop iteration computes, by cursor shape.
-/

/-- A wildcard cursor below the final token, meeting an `Obj` node, both
stays and advances. -/
theorem process_wild_intermediate (col : ColumnDescriptor) (colIdx c : Nat)
    (loc : NodeLocator)
    (hc : col.descriptors.get? c = some DescriptorToken.wildcard)
    (hlast : c + 1 ≠ col.descriptors.length)
    (hobj : loc.node_type = NodeType.Obj) :
    process_partial_entry col colIdx c loc
      = ([(colIdx, c), (colIdx, c + 1)], false) := by
  rw [process_partial_entry, hc]
  simp [hlast, hobj]

/-- A literal cursor matching the key name below the final token, meeting an
`Obj` node, advances — and also skips an immediately following non-final
wildcard. -/
theorem process_lit_intermediate (col : ColumnDescriptor) (colIdx c : Nat)
    (loc : NodeLocator)
    (hc : col.descriptors.get? c = some (DescriptorToken.lit loc.key_name))
    (hlast : c + 1 ≠ col.descriptors.length)
    (hobj : loc.node_type = NodeType.Obj) :
    process_partial_entry col colIdx c loc
      = (if col.descriptors.get? (c + 1) = some DescriptorToken.wildcard
            ∧ c + 2 ≠ col.descriptors.length then
          [(colIdx, c + 1), (colIdx, c + 2)]
        else [(colIdx, c + 1)], false) := by
  simp only [process_partial_entry, hc]
  rw [if_pos (show ¬ c + 1 = col.descriptors.length
    ∧ loc.node_type = NodeType.Obj from ⟨hlast, hobj⟩)]
  rw [if_pos trivial]
  split <;> rfl

/-- A cursor on the final token — or on the second-to-last token of a
non-`Obj` node when the final token is a wildcard — whose token matches the
key name (or is a wildcard) and whose node type intersects the column's
flags, produces a final match. -/
theorem process_terminal (col : ColumnDescriptor) (colIdx c : Nat)
    (loc : NodeLocator) (cur : DescriptorToken)
    (hc : col.descriptors.get? c = some cur)
    (hterm : c + 1 = col.descriptors.length
      ∨ (c + 1 ≠ col.descriptors.length ∧ loc.node_type ≠ NodeType.Obj
        ∧ col.descriptors.get? (c + 1) = some DescriptorToken.wildcard
        ∧ c + 2 = col.descriptors.length))
    (hmask : col.matches_any (node_to_literal_types loc.node_type) = true)
    (hcur : cur = DescriptorToken.wildcard
      ∨ cur.get_token = loc.key_name) :
    process_partial_entry col colIdx c loc = ([], true) := by
  rw [process_partial_entry, hc]
  rcases hterm with h1 | ⟨h1, h2, h3, h4⟩
  · simp [h1, hmask, hcur]
  · rw [List.get?_eq_getElem?] at h3
    simp [h1, h2, h3, h4, hmask, hcur]

/-!
List glue: decomposing `take` prefixes.
-/

theorem no_adjacent_wildcards_take (ts : List DescriptorToken) :
    ∀ i : Nat, no_adjacent_wildcards ts = true →
    no_adjacent_wildcards (ts.take i) = true := by
  induction ts with
  | nil => intro i h; simp [List.take_nil]; cases i <;> rfl
  | cons t ts2 ih =>
      intro i h
      cases i with
      | zero => rfl
      | succ i2 =>
          rw [List.take_succ_cons]
          have htail : no_adjacent_wildcards (ts2.take i2) = true :=
            ih i2 (no_adjacent_wildcards_tail t ts2 h)
          cases t with
          | lit s =>
              cases hts : ts2.take i2 with
              | nil => rfl
              | cons u us => rw [← hts]; exact htail
          | wildcard =>
              cases ts2 with
              | nil => simp [List.take_nil]; cases i2 <;> rfl
              | cons t2 ts3 =>
                  cases i2 with
                  | zero => rfl
                  | succ i3 =>
                      rw [List.take_succ_cons]
                      cases t2 with
                      | lit s2 =>
                          rw [List.take_succ_cons] at htail
                          exact htail
                      | wildcard =>
                          exact absurd h (by
                            simp [no_adjacent_wildcards])

theorem take_eq_append_one {α : Type} (l : List α) (i : Nat)
    (hi : i ≤ l.length) (ts0 : List α) (t : α) (h : l.take i = ts0 ++ [t]) :
    ts0 = l.take (i - 1) ∧ l.get? (i - 1) = some t
      ∧ i = ts0.length + 1 := by
  have hlen : i = ts0.length + 1 := by
    have hc := congrArg List.length h
    simp only [List.length_take, Nat.min_eq_left hi, List.length_append,
      List.length_singleton] at hc
    omega
  refine ⟨?_, ?_, hlen⟩
  · have h1 : (l.take i).take (i - 1) = ts0 := by
      rw [h]
      have he : i - 1 = ts0.length := by omega
      rw [he]
      simp
    rw [List.take_take] at h1
    rw [← h1]
    congr 1
    omega
  · have h2 : (l.take i)[i - 1]? = some t := by
      rw [h]
      have he : i - 1 = ts0.length := by omega
      rw [he, List.getElem?_append_right (Nat.le_refl _)]
      simp
    rw [List.getElem?_take] at h2
    have hlt : i - 1 < i := by omega
    simp only [hlt, if_true] at h2
    rw [List.get?_eq_getElem?]
    exact h2

theorem take_eq_append_two {α : Type} (l : List α) (i : Nat)
    (hi : i ≤ l.length) (ts0 : List α) (t1 t2 : α)
    (h : l.take i = ts0 ++ [t1, t2]) :
    ts0 = l.take (i - 2) ∧ l.get? (i - 2) = some t1
      ∧ l.get? (i - 1) = some t2 ∧ i = ts0.length + 2 := by
  have h0 : l.take i = (ts0 ++ [t1]) ++ [t2] := by
    rw [h]; simp
  obtain ⟨ha, hb, hcnt⟩ := take_eq_append_one l i hi (ts0 ++ [t1]) t2 h0
  have hi1 : i - 1 ≤ l.length := by omega
  obtain ⟨hd, he, hf⟩ := take_eq_append_one l (i - 1) hi1 ts0 t1 ha.symm
  have hcnt2 : i = ts0.length + 2 := by
    simp only [List.length_append, List.length_singleton] at hcnt
    omega
  have hsub : i - 1 - 1 = i - 2 := by omega
  rw [hsub] at hd he
  exact ⟨hd, he, hb, hcnt2⟩

/-!
The resolution-completeness invariant (claim C2).
-/

/-- The schema tree of a namespace. -/
def Deserializer.tree_for (d : Deserializer) (is_auto_generated : Bool) :
    SchemaTree :=
  if is_auto_generated then d.auto_gen_keys_schema_tree
  else d.user_gen_keys_schema_tree

/-- The namespace bool of a column, as the deserializer computes it. -/
def column_ns (st : SearchState) (ci : Nat) : Bool :=
  cAutogenNamespace == (st.column_get ci).descriptor_namespace

/-- Completeness invariant for one column: every `Obj` node of the column's
tree whose path is matched by a prefix of the column's tokens (matching the
path completely) carries a partial-resolution entry with the cursor after
that prefix. -/
def column_invariant (d : Deserializer) (ci : Nat) : Prop :=
  ∀ x, x < (d.tree_for (column_ns d.search ci)).size →
    ((d.tree_for (column_ns d.search ci)).get_node x).node_type
      = NodeType.Obj →
    ∀ i, i < (d.search.column_get ci).descriptors.length →
      TokMatch ((d.search.column_get ci).descriptors.take i)
        ((d.tree_for (column_ns d.search ci)).path_to x) →
      entry_mem d.search.partial_resolutions (x, column_ns d.search ci)
        (ci, i)

/-- The whole effect of one schema-tree-node-insertion unit on the
deserializer state (always-succeeding handler, fresh locator). -/
def insert_step (d : Deserializer) (is_auto_generated : Bool)
    (loc : NodeLocator) : Deserializer :=
  let tree := d.tree_for is_auto_generated
  let inserted := tree.insert_node loc
  let search2 := (handle_resolution_update_step trivial_handler d.search
    is_auto_generated loc inserted.2).1
  if is_auto_generated then
    { d with auto_gen_keys_schema_tree := inserted.1, search := search2 }
  else
    { d with user_gen_keys_schema_tree := inserted.1, search := search2 }

/-- The always-succeeding handler never aborts the update loop. -/
theorem resolution_update_loop_no_error (st : SearchState)
    (is_auto_generated : Bool) (loc : NodeLocator) (node_id : Nat) :
    ∀ (entries : List PartialResolutionEntry) (acc : ResolutionStepAcc),
    (resolution_update_loop trivial_handler st is_auto_generated loc node_id
      entries acc).2 = none := by
  intro entries
  induction entries with
  | nil => intro acc; rfl
  | cons e rest ih =>
      intro acc
      rw [resolution_update_loop]
      cases hfin : (process_partial_entry (st.column_get e.1) e.1 e.2 loc).2
        with
      | false =>
          simp only [hfin, Bool.false_eq_true, if_false]
          exact ih _
      | true =>
          simp only [hfin, if_true]
          cases hproj : alist_find st.projected_columns e.1 with
          | some original_key =>
              simp only [hproj, trivial_handler]
              exact ih _
          | none =>
              simp only [hproj]
              exact ih _

/-- The update step never errors under the always-succeeding handler. -/
theorem handle_resolution_update_step_no_error (st : SearchState)
    (is_auto_generated : Bool) (loc : NodeLocator) (node_id : Nat) :
    (handle_resolution_update_step trivial_handler st is_auto_generated loc
      node_id).2.2 = none := by
  rw [handle_resolution_update_step]
  cases alist_find st.partial_resolutions (loc.parent_id, is_auto_generated)
    with
  | none => rfl
  | some entries =>
      simp only
      exact resolution_update_loop_no_error st is_auto_generated loc node_id
        entries _

/-- The insertion branch of `deserialize_next_ir_unit` produces exactly
`insert_step`'s state when the stream is live and the locator fresh. -/
theorem deserialize_insertion_state (d : Deserializer)
    (is_auto_generated : Bool) (loc : NodeLocator)
    (hcompl : d.is_complete = false)
    (hnew : (d.tree_for is_auto_generated).has_node loc = false) :
    (deserialize_next_ir_unit trivial_handler d
      [IrUnit.SchemaTreeNodeInsertion is_auto_generated loc]).state
      = insert_step d is_auto_generated loc := by
  cases ia : is_auto_generated with
  | true =>
      rw [ia] at hnew
      simp only [deserialize_next_ir_unit, hcompl, Bool.false_eq_true,
        if_false, Deserializer.tree_for, if_true] at hnew ⊢
      simp only [hnew, Bool.false_eq_true, if_false, trivial_handler]
      rw [handle_resolution_update_step_no_error]
      rw [insert_step]
      simp [Deserializer.tree_for, hcompl]
  | false =>
      rw [ia] at hnew
      simp only [deserialize_next_ir_unit, hcompl, Bool.false_eq_true,
        if_false, Deserializer.tree_for] at hnew ⊢
      simp only [hnew, Bool.false_eq_true, if_false, trivial_handler]
      rw [handle_resolution_update_step_no_error]
      rw [insert_step]
      simp [Deserializer.tree_for, hcompl]

/-- Unfolding of one `run_insertions` step. -/
theorem run_insertions_cons (d : Deserializer) (is_auto_generated : Bool)
    (loc : NodeLocator) (rest : List (Bool × NodeLocator)) :
    run_insertions d ((is_auto_generated, loc) :: rest)
      = (if loc.parent_id < (d.tree_for is_auto_generated).size
          ∧ ((d.tree_for is_auto_generated).get_node
            loc.parent_id).node_type = NodeType.Obj
          ∧ ¬ (d.tree_for is_auto_generated).has_node loc then
        run_insertions (deserialize_next_ir_unit trivial_handler d
          [IrUnit.SchemaTreeNodeInsertion is_auto_generated loc]).state rest
      else none) := by
  rw [run_insertions]
  rfl

theorem insert_step_search (d : Deserializer) (ia : Bool)
    (loc : NodeLocator) :
    (insert_step d ia loc).search
      = (handle_resolution_update_step trivial_handler d.search ia loc
        (d.tree_for ia).size).1 := by
  cases ia <;> rfl

theorem insert_step_tree_same (d : Deserializer) (ia : Bool)
    (loc : NodeLocator) :
    (insert_step d ia loc).tree_for ia
      = ((d.tree_for ia).insert_node loc).1 := by
  cases ia <;> rfl

theorem insert_step_tree_other (d : Deserializer) (ia ns : Bool)
    (loc : NodeLocator) (h : ns ≠ ia) :
    (insert_step d ia loc).tree_for ns = d.tree_for ns := by
  cases ia <;> cases ns <;> first | exact absurd rfl h | rfl

theorem insert_step_complete (d : Deserializer) (ia : Bool)
    (loc : NodeLocator) :
    (insert_step d ia loc).is_complete = d.is_complete := by
  cases ia <;> rfl

theorem insert_step_columns (d : Deserializer) (ia : Bool)
    (loc : NodeLocator) :
    (insert_step d ia loc).search.columns = d.search.columns := by
  rw [insert_step_search]
  exact (handle_resolution_update_step_columns _ _ _ _ _).1

theorem insert_step_projected (d : Deserializer) (ia : Bool)
    (loc : NodeLocator) :
    (insert_step d ia loc).search.projected_columns
      = d.search.projected_columns := by
  rw [insert_step_search]
  exact (handle_resolution_update_step_columns _ _ _ _ _).2

theorem column_get_congr (st1 st2 : SearchState)
    (h : st1.columns = st2.columns) (ci : Nat) :
    st1.column_get ci = st2.column_get ci := by
  simp [SearchState.column_get, h]

theorem column_ns_congr (st1 st2 : SearchState)
    (h : st1.columns = st2.columns) (ci : Nat) :
    column_ns st1 ci = column_ns st2 ci := by
  simp [column_ns, column_get_congr st1 st2 h ci]

/-- Preservation of the completeness invariant by one valid insertion. -/
theorem column_invariant_step (d : Deserializer) (ci : Nat) (ia : Bool)
    (loc : NodeLocator)
    (hadj : no_adjacent_wildcards (d.search.column_get ci).descriptors
      = true)
    (hwf : (d.tree_for ia).wf)
    (hpar : loc.parent_id < (d.tree_for ia).size)
    (hparobj : ((d.tree_for ia).get_node loc.parent_id).node_type
      = NodeType.Obj)
    (hinv : column_invariant d ci) :
    column_invariant (insert_step d ia loc) ci := by
  have hget : (insert_step d ia loc).search.column_get ci
      = d.search.column_get ci :=
    column_get_congr _ _ (insert_step_columns d ia loc) ci
  have hns : column_ns (insert_step d ia loc).search ci
      = column_ns d.search ci :=
    column_ns_congr _ _ (insert_step_columns d ia loc) ci
  intro x hx hobj i hi hm
  rw [hns] at hx hobj hm ⊢
  rw [hget] at hi hm
  rw [insert_step_search]
  by_cases hcase : column_ns d.search ci = ia
  · -- insertion in the column's namespace
    subst hcase
    rw [insert_step_tree_same] at hx hobj hm
    rw [schema_tree_size_insert] at hx
    by_cases hold : x < (d.tree_for (column_ns d.search ci)).size
    · rw [schema_tree_get_node_insert_old _ _ _ hold] at hobj
      rw [schema_tree_path_to_insert_old _ _ _ hold] at hm
      have hbase := hinv x hold hobj i hi hm
      exact (handle_resolution_update_step_mono d.search _ loc
        (d.tree_for (column_ns d.search ci)).size).1 _ _ hbase
    · -- the newly inserted node
      have hxeq : x = (d.tree_for (column_ns d.search ci)).size := by omega
      subst hxeq
      rw [schema_tree_get_node_insert_new] at hobj
      have hobjloc : loc.node_type = NodeType.Obj := hobj
      rw [schema_tree_path_to_insert_new _ _ hwf.1 hpar] at hm
      have hadjtake : no_adjacent_wildcards
          ((d.search.column_get ci).descriptors.take i) = true :=
        no_adjacent_wildcards_take _ i hadj
      have hilen : i ≤ (d.search.column_get ci).descriptors.length :=
        Nat.le_of_lt hi
      rcases tok_match_snoc _ _ _ hm hadjtake with
        ⟨ts0, t, heq, hm0, hc⟩ | ⟨ts0, heq, hm0⟩
      · obtain ⟨hts0, hgt, hlen0⟩ :=
          take_eq_append_one _ i hilen ts0 t heq
        have hi1 : i - 1 < (d.search.column_get ci).descriptors.length := by
          omega
        have hm1 : TokMatch
            ((d.search.column_get ci).descriptors.take (i - 1))
            ((d.tree_for (column_ns d.search ci)).path_to loc.parent_id) := by
          rw [← hts0]; exact hm0
        have hpe := hinv loc.parent_id hpar hparobj (i - 1) hi1 hm1
        obtain ⟨entries, hfind, hmem⟩ := hpe
        have hstep := handle_resolution_update_step_adds d.search
          (column_ns d.search ci) loc
          (d.tree_for (column_ns d.search ci)).size entries hfind
          (ci, i - 1) hmem
        apply hstep.1
        have hlast : ¬ (i - 1 + 1
            = (d.search.column_get ci).descriptors.length) := by omega
        rcases hc with hwild | hlit
        · rw [hwild] at hgt
          rw [process_wild_intermediate (d.search.column_get ci) ci (i - 1)
            loc hgt hlast hobjloc]
          have h1 : i - 1 + 1 = i := by omega
          rw [h1]
          show (ci, i) ∈ [(ci, i - 1), (ci, i)]
          exact List.mem_cons_of_mem _ (List.mem_cons_self _ _)
        · rw [hlit] at hgt
          rw [process_lit_intermediate (d.search.column_get ci) ci (i - 1)
            loc hgt hlast hobjloc]
          have h1 : i - 1 + 1 = i := by omega
          rw [h1]
          show (ci, i) ∈ (if (d.search.column_get ci).descriptors.get? i
              = some DescriptorToken.wildcard
              ∧ ¬ (i - 1 + 2 = (d.search.column_get ci).descriptors.length)
            then [(ci, i), (ci, i - 1 + 2)] else [(ci, i)])
          split
          · exact List.mem_cons_self _ _
          · exact List.mem_cons_self _ _
      · obtain ⟨hts0, hg1, hg2, hlen2⟩ :=
          take_eq_append_two _ i hilen ts0 _ _ heq
        have hi2 : i - 2 < (d.search.column_get ci).descriptors.length := by
          omega
        have hm1 : TokMatch
            ((d.search.column_get ci).descriptors.take (i - 2))
            ((d.tree_for (column_ns d.search ci)).path_to loc.parent_id) := by
          rw [← hts0]; exact hm0
        have hpe := hinv loc.parent_id hpar hparobj (i - 2) hi2 hm1
        obtain ⟨entries, hfind, hmem⟩ := hpe
        have hstep := handle_resolution_update_step_adds d.search
          (column_ns d.search ci) loc
          (d.tree_for (column_ns d.search ci)).size entries hfind
          (ci, i - 2) hmem
        apply hstep.1
        have hlast : ¬ (i - 2 + 1
            = (d.search.column_get ci).descriptors.length) := by omega
        rw [process_lit_intermediate (d.search.column_get ci) ci (i - 2)
          loc hg1 hlast hobjloc]
        have h21 : i - 2 + 1 = i - 1 := by omega
        have h22 : i - 2 + 2 = i := by omega
        rw [h21, h22]
        show (ci, i) ∈ (if (d.search.column_get ci).descriptors.get? (i - 1)
            = some DescriptorToken.wildcard
            ∧ ¬ (i = (d.search.column_get ci).descriptors.length)
          then [(ci, i - 1), (ci, i)] else [(ci, i - 1)])
        rw [if_pos ⟨hg2, Nat.ne_of_lt hi⟩]
        exact List.mem_cons_of_mem _ (List.mem_cons_self _ _)
  · -- insertion in the other namespace
    have hne : column_ns d.search ci ≠ ia := hcase
    rw [insert_step_tree_other d ia _ loc hne] at hx hobj hm
    have hbase := hinv x hx hobj i hi hm
    exact (handle_resolution_update_step_mono d.search ia loc
      (d.tree_for ia).size).1 _ _ hbase

/-!
Initialization: the anchors `initialize_partial_resolutions` plants.
-/

theorem foldl_search_fields {α : Type} (g : SearchState → α → SearchState)
    (hg : ∀ st a, (g st a).columns = st.columns
      ∧ (g st a).projected_columns = st.projected_columns) :
    ∀ (l : List α) (st : SearchState),
    (l.foldl g st).columns = st.columns
      ∧ (l.foldl g st).projected_columns = st.projected_columns := by
  intro l
  induction l with
  | nil => exact fun st => ⟨rfl, rfl⟩
  | cons a rest ih =>
      intro st
      exact ⟨((ih (g st a)).1).trans (hg st a).1,
        ((ih (g st a)).2).trans (hg st a).2⟩

theorem foldl_search_mono {α : Type} (g : SearchState → α → SearchState)
    (hg : ∀ st a (k : PartialResolutionKey) (x : PartialResolutionEntry),
      entry_mem st.partial_resolutions k x →
      entry_mem (g st a).partial_resolutions k x) :
    ∀ (l : List α) (st : SearchState) (k : PartialResolutionKey)
      (x : PartialResolutionEntry),
    entry_mem st.partial_resolutions k x →
    entry_mem (l.foldl g st).partial_resolutions k x := by
  intro l
  induction l with
  | nil => exact fun st k x h => h
  | cons a rest ih => exact fun st k x h => ih (g st a) k x (hg st a k x h)

theorem init_projected_step_fields (st : SearchState) (p : Nat × String) :
    (init_projected_step st p).columns = st.columns
    ∧ (init_projected_step st p).projected_columns
      = st.projected_columns :=
  ⟨rfl, rfl⟩

theorem init_projected_step_mono (st : SearchState) (p : Nat × String)
    (k : PartialResolutionKey) (x : PartialResolutionEntry)
    (h : entry_mem st.partial_resolutions k x) :
    entry_mem (init_projected_step st p).partial_resolutions k x :=
  entry_mem_append_entry_of _ _ _ _ _ h

theorem init_filter_step_fields (st : SearchState) (f : FilterExpr) :
    (init_filter_step st f).columns = st.columns
    ∧ (init_filter_step st f).projected_columns = st.projected_columns := by
  simp only [init_filter_step]
  split
  · exact ⟨rfl, rfl⟩
  · split
    · exact ⟨rfl, rfl⟩
    · split
      · exact ⟨rfl, rfl⟩
      · exact ⟨rfl, rfl⟩

theorem init_filter_step_mono (st : SearchState) (f : FilterExpr)
    (k : PartialResolutionKey) (x : PartialResolutionEntry)
    (h : entry_mem st.partial_resolutions k x) :
    entry_mem (init_filter_step st f).partial_resolutions k x := by
  simp only [init_filter_step]
  split
  · exact h
  · split
    · exact h
    · split
      · exact entry_mem_append_entry_of _ _ _ _ _
          (entry_mem_append_entry_of _ _ _ _ _ h)
      · exact entry_mem_append_entry_of _ _ _ _ _ h

theorem init_filter_step_adds (st : SearchState) (f : FilterExpr)
    (hpure : (st.column_get f.column_index).is_pure_wildcard = false)
    (hne : (st.column_get f.column_index).descriptors ≠ []) :
    entry_mem (init_filter_step st f).partial_resolutions
      (cRootId, cAutogenNamespace
        == (st.column_get f.column_index).descriptor_namespace)
      (f.column_index, 0)
    ∧ ((st.column_get f.column_index).descriptors.get? 0
        = some DescriptorToken.wildcard →
      entry_mem (init_filter_step st f).partial_resolutions
        (cRootId, cAutogenNamespace
          == (st.column_get f.column_index).descriptor_namespace)
        (f.column_index, 1)) := by
  have h1 : ¬ ((st.column_get f.column_index).is_pure_wildcard = true) :=
    Bool.eq_false_iff.mp hpure
  simp only [init_filter_step]
  rw [if_neg h1, if_neg hne]
  by_cases hw : (st.column_get f.column_index).descriptors.get? 0
      = some DescriptorToken.wildcard
  · rw [if_pos hw]
    constructor
    · exact entry_mem_append_entry_of _ _ _ _ _
        (entry_mem_append_entry_self _ _ _)
    · intro _
      exact entry_mem_append_entry_self _ _ _
  · rw [if_neg hw]
    exact ⟨entry_mem_append_entry_self _ _ _, fun h => absurd h hw⟩

theorem initialize_partial_resolutions_columns
    (columns : List ColumnDescriptor) (projected : List (Nat × String))
    (query : Option Expr) :
    (initialize_partial_resolutions columns projected query).columns = columns
    ∧ (initialize_partial_resolutions columns projected
        query).projected_columns = projected := by
  cases query with
  | none =>
      exact foldl_search_fields init_projected_step
        (fun st p => ⟨rfl, rfl⟩) projected ⟨columns, [], [], projected⟩
  | some q =>
      have h1 := foldl_search_fields init_projected_step
        (fun st p => ⟨rfl, rfl⟩) projected
        (⟨columns, [], [], projected⟩ : SearchState)
      have h2 := foldl_search_fields init_filter_step
        (fun st f => init_filter_step_fields st f) (collect_filter_exprs q)
        (projected.foldl init_projected_step ⟨columns, [], [], projected⟩)
      exact ⟨h2.1.trans h1.1, h2.2.trans h1.2⟩

theorem initialize_partial_resolutions_mem
    (columns : List ColumnDescriptor) (projected : List (Nat × String))
    (q : Expr) (f : FilterExpr) (hf : f ∈ collect_filter_exprs q)
    (hpure : (columns.getD f.column_index default).is_pure_wildcard = false)
    (hne : (columns.getD f.column_index default).descriptors ≠ []) :
    entry_mem (initialize_partial_resolutions columns projected
        (some q)).partial_resolutions
      (cRootId, cAutogenNamespace
        == (columns.getD f.column_index default).descriptor_namespace)
      (f.column_index, 0)
    ∧ ((columns.getD f.column_index default).descriptors.get? 0
        = some DescriptorToken.wildcard →
      entry_mem (initialize_partial_resolutions columns projected
          (some q)).partial_resolutions
        (cRootId, cAutogenNamespace
          == (columns.getD f.column_index default).descriptor_namespace)
        (f.column_index, 1)) := by
  obtain ⟨l1, l2, hsplit⟩ := List.append_of_mem hf
  have hsta := foldl_search_fields init_projected_step
    (fun st p => ⟨rfl, rfl⟩) projected
    (⟨columns, [], [], projected⟩ : SearchState)
  have hstb := foldl_search_fields init_filter_step
    (fun st f2 => init_filter_step_fields st f2) l1
    (projected.foldl init_projected_step ⟨columns, [], [], projected⟩)
  have hcol : (l1.foldl init_filter_step (projected.foldl init_projected_step
        ⟨columns, [], [], projected⟩)).column_get f.column_index
      = columns.getD f.column_index default := by
    simp only [SearchState.column_get, hstb.1, hsta.1]
  have hadds := init_filter_step_adds
    (l1.foldl init_filter_step (projected.foldl init_projected_step
      ⟨columns, [], [], projected⟩)) f
    (by rw [hcol]; exact hpure) (by rw [hcol]; exact hne)
  rw [hcol] at hadds
  have heq : initialize_partial_resolutions columns projected (some q)
      = l2.foldl init_filter_step
        (init_filter_step (l1.foldl init_filter_step
          (projected.foldl init_projected_step
            ⟨columns, [], [], projected⟩)) f) := by
    have h0 : initialize_partial_resolutions columns projected (some q)
        = (collect_filter_exprs q).foldl init_filter_step
          (projected.foldl init_projected_step
            ⟨columns, [], [], projected⟩) := rfl
    rw [h0, hsplit, List.foldl_append, List.foldl_cons]
  rw [heq]
  constructor
  · exact foldl_search_mono init_filter_step
      (fun st a k x h => init_filter_step_mono st a k x h) l2 _ _ _ hadds.1
  · intro hw
    exact foldl_search_mono init_filter_step
      (fun st a k x h => init_filter_step_mono st a k x h) l2 _ _ _
      (hadds.2 hw)

theorem schema_tree_path_to_zero (t : SchemaTree) : t.path_to 0 = [] := by
  rw [SchemaTree.path_to]
  simp

/-- The bundle carried along a run: both trees well-formed, the stream still
live, and the completeness invariant for the column. -/
def run_invariant (d : Deserializer) (ci : Nat) : Prop :=
  d.auto_gen_keys_schema_tree.wf ∧ d.user_gen_keys_schema_tree.wf
    ∧ d.is_complete = false ∧ column_invariant d ci

/-- A freshly constructed deserializer satisfies the bundle for every
non-pure-wildcard filter column of its query with an adjacency-free,
non-empty token list. -/
theorem mk_deserializer_run_invariant (columns : List ColumnDescriptor)
    (projected : List (Nat × String)) (q : Expr) (f : FilterExpr)
    (hf : f ∈ collect_filter_exprs q)
    (hpure : (columns.getD f.column_index default).is_pure_wildcard = false)
    (hne : (columns.getD f.column_index default).descriptors ≠ [])
    (hadj : no_adjacent_wildcards
      (columns.getD f.column_index default).descriptors = true) :
    run_invariant (mk_deserializer columns projected (some q))
      f.column_index := by
  refine ⟨schema_tree_initial_wf, schema_tree_initial_wf, rfl, ?_⟩
  have htree : ∀ b, (mk_deserializer columns projected (some q)).tree_for b
      = SchemaTree.initial := by
    intro b
    cases b <;> rfl
  have hcols : (mk_deserializer columns projected (some q)).search.columns
      = columns :=
    (initialize_partial_resolutions_columns columns projected (some q)).1
  have hcol : (mk_deserializer columns projected
        (some q)).search.column_get f.column_index
      = columns.getD f.column_index default := by
    simp only [SearchState.column_get, hcols]
  intro x hx hobj i hi hm
  rw [htree] at hx hm
  have hx0 : x = 0 := by
    simp only [SchemaTree.initial, SchemaTree.size, List.length_singleton]
      at hx
    omega
  subst hx0
  rw [schema_tree_path_to_zero] at hm
  rw [hcol] at hi hm
  have hmem := initialize_partial_resolutions_mem columns projected q f hf
    hpure hne
  have hkey : column_ns (mk_deserializer columns projected
        (some q)).search f.column_index
      = (cAutogenNamespace
        == (columns.getD f.column_index default).descriptor_namespace) := by
    simp only [column_ns, hcol]
  rcases tok_match_nil_short _ hm (no_adjacent_wildcards_take _ i hadj)
    with h0 | h1
  · have hi0 : i = 0 := by
      cases hii : i with
      | zero => rfl
      | succ j =>
          exfalso
          rw [hii] at h0
          cases hcd : (columns.getD f.column_index default).descriptors with
          | nil => exact hne hcd
          | cons a as =>
              rw [hcd] at h0
              simp at h0
    subst hi0
    rw [hkey]
    exact hmem.1
  · have h1' : (columns.getD f.column_index default).descriptors.take i
        = [] ++ [DescriptorToken.wildcard] := by simpa using h1
    obtain ⟨_, hgt, hlen⟩ := take_eq_append_one _ i (Nat.le_of_lt hi) []
      DescriptorToken.wildcard h1'
    have hi1 : i = 1 := by simpa using hlen
    subst hi1
    rw [hkey]
    exact hmem.2 (by simpa using hgt)

/-- The bundle — and the column arena — survive any accepted insertion
sequence. -/
theorem run_insertions_invariant (ci : Nat) :
    ∀ (ops : List (Bool × NodeLocator)) (d d' : Deserializer),
    no_adjacent_wildcards (d.search.column_get ci).descriptors = true →
    run_invariant d ci →
    run_insertions d ops = some d' →
    run_invariant d' ci ∧ d'.search.columns = d.search.columns
      ∧ d'.search.projected_columns = d.search.projected_columns := by
  intro ops
  induction ops with
  | nil =>
      intro d d' hadj hinv hrun
      injection (show some d = some d' from hrun) with h
      subst h
      exact ⟨hinv, rfl, rfl⟩
  | cons op rest ih =>
      obtain ⟨ia, loc⟩ := op
      intro d d' hadj hinv hrun
      rw [run_insertions_cons] at hrun
      by_cases hv : loc.parent_id < (d.tree_for ia).size
          ∧ ((d.tree_for ia).get_node loc.parent_id).node_type
            = NodeType.Obj
          ∧ ¬ (d.tree_for ia).has_node loc
      · rw [if_pos hv] at hrun
        obtain ⟨hinv1, hinv2, hinv3, hinv4⟩ := hinv
        have hstate := deserialize_insertion_state d ia loc hinv3
          (Bool.eq_false_iff.mpr hv.2.2)
        rw [hstate] at hrun
        have hwfia : (d.tree_for ia).wf := by
          cases ia
          · exact hinv2
          · exact hinv1
        have hwfall : ∀ b, ((insert_step d ia loc).tree_for b).wf := by
          intro b
          by_cases hb : b = ia
          · subst hb
            rw [insert_step_tree_same]
            exact schema_tree_insert_wf _ _ hwfia hv.1
          · rw [insert_step_tree_other d ia b loc hb]
            cases b
            · exact hinv2
            · exact hinv1
        have hnew : run_invariant (insert_step d ia loc) ci := by
          refine ⟨hwfall true, hwfall false, ?_, ?_⟩
          · rw [insert_step_complete]
            exact hinv3
          · exact column_invariant_step d ci ia loc hadj hwfia hv.1 hv.2.1
              hinv4
        have hadj2 : no_adjacent_wildcards
            ((insert_step d ia loc).search.column_get ci).descriptors
              = true := by
          rw [column_get_congr _ _ (insert_step_columns d ia loc) ci]
          exact hadj
        obtain ⟨hr1, hr2, hr3⟩ := ih (insert_step d ia loc) d' hadj2 hnew
          hrun
        refine ⟨hr1, ?_, ?_⟩
        · rw [hr2, insert_step_columns]
        · rw [hr3, insert_step_projected]
      · rw [if_neg hv] at hrun
        exact Option.noConfusion hrun

/-- Under the completeness invariant, an insertion whose segment is consumed
by the column's final token — or, for a non-object node, by the literal
before a zero-width trailing wildcard — lands in the column's final
resolutions. -/
theorem resolution_final_add (d : Deserializer) (ci : Nat)
    (loc : NodeLocator)
    (hinvd : column_invariant d ci)
    (hmask : (d.search.column_get ci).matches_any
      (node_to_literal_types loc.node_type) = true)
    (hproj : alist_find d.search.projected_columns ci = none)
    (hpar : loc.parent_id < (d.tree_for (column_ns d.search ci)).size)
    (hparobj : ((d.tree_for (column_ns d.search ci)).get_node
      loc.parent_id).node_type = NodeType.Obj)
    (hAB : (∃ ts0 t, (d.search.column_get ci).descriptors = ts0 ++ [t]
        ∧ TokMatch ts0
          ((d.tree_for (column_ns d.search ci)).path_to loc.parent_id)
        ∧ (t = DescriptorToken.wildcard
          ∨ t = DescriptorToken.lit loc.key_name))
      ∨ (loc.node_type ≠ NodeType.Obj
        ∧ ∃ ts0, (d.search.column_get ci).descriptors
            = ts0 ++ [DescriptorToken.lit loc.key_name,
              DescriptorToken.wildcard]
          ∧ TokMatch ts0
            ((d.tree_for (column_ns d.search ci)).path_to loc.parent_id))) :
    entry_mem (handle_resolution_update_step trivial_handler d.search
        (column_ns d.search ci) loc
        (d.tree_for (column_ns d.search ci)).size).1.resolutions
      ci ((d.tree_for (column_ns d.search ci)).size) := by
  rcases hAB with ⟨ts0, t, heq', hm0, hc⟩ | ⟨hnotobj, ts0, heq', hm0⟩
  · have heq : (d.search.column_get ci).descriptors.take
        (d.search.column_get ci).descriptors.length = ts0 ++ [t] := by
      rw [List.take_length]
      exact heq'
    obtain ⟨hts0, hgt, hlen0⟩ := take_eq_append_one _
      (d.search.column_get ci).descriptors.length (Nat.le_refl _) ts0 t heq
    have hi1 : (d.search.column_get ci).descriptors.length - 1
        < (d.search.column_get ci).descriptors.length := by omega
    have hm1 : TokMatch ((d.search.column_get ci).descriptors.take
          ((d.search.column_get ci).descriptors.length - 1))
        ((d.tree_for (column_ns d.search ci)).path_to loc.parent_id) := by
      rw [← hts0]
      exact hm0
    obtain ⟨entries, hfind, hmem⟩ := hinvd loc.parent_id hpar hparobj _ hi1
      hm1
    have hadds := handle_resolution_update_step_adds d.search
      (column_ns d.search ci) loc
      (d.tree_for (column_ns d.search ci)).size entries hfind
      (ci, (d.search.column_get ci).descriptors.length - 1) hmem
    have hcur : t = DescriptorToken.wildcard
        ∨ t.get_token = loc.key_name := by
      rcases hc with h | h
      · exact Or.inl h
      · rw [h]
        exact Or.inr rfl
    exact hadds.2 (by
      rw [process_terminal (d.search.column_get ci) ci
        ((d.search.column_get ci).descriptors.length - 1) loc t hgt
        (Or.inl (by omega)) hmask hcur]) hproj
  · have heq : (d.search.column_get ci).descriptors.take
        (d.search.column_get ci).descriptors.length
          = ts0 ++ [DescriptorToken.lit loc.key_name,
            DescriptorToken.wildcard] := by
      rw [List.take_length]
      exact heq'
    obtain ⟨hts0, hg1, hg2, hlen2⟩ := take_eq_append_two _
      (d.search.column_get ci).descriptors.length (Nat.le_refl _) ts0 _ _ heq
    have hi2 : (d.search.column_get ci).descriptors.length - 2
        < (d.search.column_get ci).descriptors.length := by omega
    have hm1 : TokMatch ((d.search.column_get ci).descriptors.take
          ((d.search.column_get ci).descriptors.length - 2))
        ((d.tree_for (column_ns d.search ci)).path_to loc.parent_id) := by
      rw [← hts0]
      exact hm0
    obtain ⟨entries, hfind, hmem⟩ := hinvd loc.parent_id hpar hparobj _ hi2
      hm1
    have hadds := handle_resolution_update_step_adds d.search
      (column_ns d.search ci) loc
      (d.tree_for (column_ns d.search ci)).size entries hfind
      (ci, (d.search.column_get ci).descriptors.length - 2) hmem
    have hg2' : (d.search.column_get ci).descriptors.get?
        ((d.search.column_get ci).descriptors.length - 2 + 1)
          = some DescriptorToken.wildcard := by
      rw [show (d.search.column_get ci).descriptors.length - 2 + 1
        = (d.search.column_get ci).descriptors.length - 1 from by omega]
      exact hg2
    exact hadds.2 (by
      rw [process_terminal (d.search.column_get ci) ci
        ((d.search.column_get ci).descriptors.length - 2) loc
        (DescriptorToken.lit loc.key_name) hg1
        (Or.inr ⟨by omega, hnotobj, hg2', by omega⟩) hmask
        (Or.inr rfl)]) hproj

/-- Claim C2 (amended): resolution completeness holds as *at least once*,
not *exactly once*, and with qualifications.  For every non-pure-wildcard,
non-projected filter column of the query with a non-empty, adjacency-free
token list, and for every deserializer reachable from construction by any
accepted insertion sequence: inserting into the column's namespace a node
whose full key path matches the column's token sequence (single-segment
wildcards, zero-width included), whose type intersects the column's type
mask, and — when the inserted node is an object node — whose own key segment
is consumed by the column's final token, puts the node's id into the
column's final resolutions. -/
theorem claim_C2_amended (columns : List ColumnDescriptor)
    (projected : List (Nat × String)) (q : Expr) (f : FilterExpr)
    (ops : List (Bool × NodeLocator)) (d : Deserializer) (loc : NodeLocator)
    (hf : f ∈ collect_filter_exprs q)
    (hpure : (columns.getD f.column_index default).is_pure_wildcard = false)
    (hne : (columns.getD f.column_index default).descriptors ≠ [])
    (hadj : no_adjacent_wildcards
      (columns.getD f.column_index default).descriptors = true)
    (hrun : run_insertions (mk_deserializer columns projected (some q)) ops
      = some d)
    (hproj : alist_find d.search.projected_columns f.column_index = none)
    (hpar : loc.parent_id
      < (d.tree_for (column_ns d.search f.column_index)).size)
    (hparobj : ((d.tree_for (column_ns d.search f.column_index)).get_node
      loc.parent_id).node_type = NodeType.Obj)
    (hmatch : tokens_match_path
      (d.search.column_get f.column_index).descriptors
      ((d.tree_for (column_ns d.search f.column_index)).path_to
        loc.parent_id ++ [loc.key_name]) = true)
    (hmask : (d.search.column_get f.column_index).matches_any
      (node_to_literal_types loc.node_type) = true)
    (hobj2 : loc.node_type = NodeType.Obj →
      ∃ ts0 t, (d.search.column_get f.column_index).descriptors = ts0 ++ [t]
        ∧ TokMatch ts0
          ((d.tree_for (column_ns d.search f.column_index)).path_to
            loc.parent_id)
        ∧ (t = DescriptorToken.wildcard
          ∨ t = DescriptorToken.lit loc.key_name)) :
    entry_mem (insert_step d (column_ns d.search f.column_index)
        loc).search.resolutions f.column_index
      ((d.tree_for (column_ns d.search f.column_index)).size) := by
  have hinit := mk_deserializer_run_invariant columns projected q f hf hpure
    hne hadj
  have hcols0 : (mk_deserializer columns projected (some q)).search.columns
      = columns :=
    (initialize_partial_resolutions_columns columns projected (some q)).1
  have hadj0 : no_adjacent_wildcards
      ((mk_deserializer columns projected (some q)).search.column_get
        f.column_index).descriptors = true := by
    simp only [SearchState.column_get, hcols0]
    exact hadj
  have hpres := run_insertions_invariant f.column_index ops _ d hadj0 hinit
    hrun
  have hcols : d.search.columns = columns := by
    rw [hpres.2.1]
    exact hcols0
  have hcold : d.search.column_get f.column_index
      = columns.getD f.column_index default := by
    simp only [SearchState.column_get, hcols]
  have hinvd : column_invariant d f.column_index := hpres.1.2.2.2
  have hm := (tokens_match_path_iff _ _).mp hmatch
  rw [insert_step_search]
  apply resolution_final_add d f.column_index loc hinvd hmask hproj hpar
    hparobj
  by_cases hO : loc.node_type = NodeType.Obj
  · exact Or.inl (hobj2 hO)
  · rcases tok_match_snoc _ _ _ hm (by rw [hcold]; exact hadj)
      with hA | ⟨ts0, heq, hm0⟩
    · exact Or.inl hA
    · exact Or.inr ⟨hO, ts0, heq, hm0⟩

/-- Counterexample column `*.a.*.b`: two distinct wildcard alignments reach
the same node. -/
def c2_col : ColumnDescriptor :=
  ⟨"", [DescriptorToken.wildcard, DescriptorToken.lit "a",
    DescriptorToken.wildcard, DescriptorToken.lit "b"], cAllTypes⟩

def c2_f : FilterExpr := ⟨0, FilterOperation.EXISTS, none, false⟩

def c2_q : Expr := Expr.Filter c2_f

def c2_d0 : Deserializer := mk_deserializer [c2_col] [] (some c2_q)

/-- Inserting `a`, then `a.a`, then `a.a.b` into the user-key tree. -/
def c2_ops : List (Bool × NodeLocator) :=
  [(false, ⟨0, "a", NodeType.Obj⟩), (false, ⟨1, "a", NodeType.Obj⟩),
    (false, ⟨2, "b", NodeType.Int⟩)]

def c2_df : Deserializer := (run_insertions c2_d0 c2_ops).getD c2_d0

/-- Claim C2 counterexample: for the query column `*.a.*.b` the accepted
insertion sequence `a`, `a.a`, `a.a.b` produces final resolutions `[3, 3]`
for the column — node 3's id appears twice, not exactly once — although
node 3's full key path `a.a.b` matches the column's token sequence and its
type intersects the column's (all-types) mask; the duplicate comes from the
two wildcard alignments of the same path. -/
theorem claim_C2_counterexample :
    run_insertions c2_d0 c2_ops = some c2_df
    ∧ alist_find c2_df.search.resolutions c2_f.column_index = some [3, 3]
    ∧ (c2_df.tree_for (column_ns c2_df.search c2_f.column_index)).path_to 3
      = ["a", "a", "b"]
    ∧ tokens_match_path (c2_df.search.column_get c2_f.column_index).descriptors
      ["a", "a", "b"] = true
    ∧ (c2_df.search.column_get c2_f.column_index).matches_any
      (node_to_literal_types ((c2_df.tree_for (column_ns c2_df.search
        c2_f.column_index)).get_node 3).node_type) = true := by
  refine ⟨rfl, rfl, ?_, rfl, rfl⟩
  have h1 : (c2_df.tree_for (column_ns c2_df.search
      c2_f.column_index)).path_to 1 = ["a"] := by
    rw [SchemaTree.path_to]
    rw [show (c2_df.tree_for (column_ns c2_df.search
      c2_f.column_index)).get_node 1 = ⟨0, "a", NodeType.Obj⟩ from rfl]
    norm_num
    exact schema_tree_path_to_zero _
  have h2 : (c2_df.tree_for (column_ns c2_df.search
      c2_f.column_index)).path_to 2 = ["a", "a"] := by
    rw [SchemaTree.path_to]
    rw [show (c2_df.tree_for (column_ns c2_df.search
      c2_f.column_index)).get_node 2 = ⟨1, "a", NodeType.Obj⟩ from rfl]
    norm_num
    rw [h1]
    rfl
  rw [SchemaTree.path_to]
  rw [show (c2_df.tree_for (column_ns c2_df.search
    c2_f.column_index)).get_node 3 = ⟨2, "b", NodeType.Int⟩ from rfl]
  norm_num
  rw [h2]
  rfl

def c2w_col : ColumnDescriptor :=
  ⟨"", [DescriptorToken.lit "a", DescriptorToken.lit "b"], cAllTypes⟩

def c2w_f : FilterExpr := ⟨0, FilterOperation.EXISTS, none, false⟩

def c2w_q : Expr := Expr.Filter c2w_f

def c2w_d0 : Deserializer := mk_deserializer [c2w_col] [] (some c2w_q)

def c2w_ops : List (Bool × NodeLocator) := [(false, ⟨0, "a", NodeType.Obj⟩)]

def c2w_d : Deserializer := (run_insertions c2w_d0 c2w_ops).getD c2w_d0

def c2w_loc : NodeLocator := ⟨1, "b", NodeType.Int⟩

/-- Witness for the amended claim C2 at a concrete input: for the column
`a.b`, after inserting `a`, inserting the integer node `a.b` puts its id
into the column's final resolutions. -/
theorem claim_C2_amended_witness :
    entry_mem (insert_step c2w_d (column_ns c2w_d.search 0)
        c2w_loc).search.resolutions 0
      ((c2w_d.tree_for (column_ns c2w_d.search 0)).size) := by
  have hf : c2w_f ∈ collect_filter_exprs c2w_q :=
    List.mem_singleton.mpr rfl
  have hpure : ([c2w_col].getD 0 default).is_pure_wildcard = false := rfl
  have hne : ([c2w_col].getD 0 default).descriptors ≠ [] :=
    List.cons_ne_nil _ _
  have hadj : no_adjacent_wildcards
      ([c2w_col].getD 0 default).descriptors = true := rfl
  have hrun : run_insertions (mk_deserializer [c2w_col] [] (some c2w_q))
      c2w_ops = some c2w_d := rfl
  have hproj : alist_find c2w_d.search.projected_columns 0 = none := rfl
  have hpar : c2w_loc.parent_id
      < (c2w_d.tree_for (column_ns c2w_d.search 0)).size := by decide
  have hparobj : ((c2w_d.tree_for (column_ns c2w_d.search 0)).get_node
      c2w_loc.parent_id).node_type = NodeType.Obj := rfl
  have hmatch : tokens_match_path (c2w_d.search.column_get 0).descriptors
      ((c2w_d.tree_for false).path_to 1 ++ ["b"]) = true := by
    have h1 : (c2w_d.tree_for false).path_to 1 = ["a"] := by
      rw [SchemaTree.path_to]
      rw [show (c2w_d.tree_for false).get_node 1 = ⟨0, "a", NodeType.Obj⟩
        from rfl]
      norm_num
      exact schema_tree_path_to_zero _
    rw [h1]
    rfl
  have hmask : (c2w_d.search.column_get 0).matches_any
      (node_to_literal_types c2w_loc.node_type) = true := rfl
  have hobj2 : c2w_loc.node_type = NodeType.Obj →
      ∃ ts0 t, (c2w_d.search.column_get 0).descriptors = ts0 ++ [t]
        ∧ TokMatch ts0
          ((c2w_d.tree_for (column_ns c2w_d.search 0)).path_to
            c2w_loc.parent_id)
        ∧ (t = DescriptorToken.wildcard
          ∨ t = DescriptorToken.lit c2w_loc.key_name) :=
    fun h => absurd h (by decide)
  exact claim_C2_amended [c2w_col] [] c2w_q c2w_f c2w_ops c2w_d c2w_loc hf
    hpure hne hadj hrun hproj hpar hparobj hmatch hmask hobj2

end ClpIr
